import Mathlib

/-!
A verification development for the derived-query memoization engine in
`src/derived.rs` (type `DerivedGlobalStorage` and its helpers).

The file embeds the engine shallowly:

* Everything visible in `src/derived.rs` (`DerivedGlobalStorage::slot`,
  `fetch`, `invalidate`, `purge`, `entries`, the `MemoizationPolicy` trait
  with its `AlwaysMemoizeValue` / `NeverMemoizeValue` instances) is
  translated directly from that source file.
* The per-key slot state machine (`mod slot`), the LRU list and the runtime
  (revision counter, cancellation flag, active query stack, durability
  bookkeeping) are declared but not shown in the available sources; those
  definitions are modelled from the specification and carry a
  `Modelled from the spec:` doc comment.

Machine integers (`u16`, `u32`, `usize`) are modelled as `Nat`; none of the
verified claims depends on overflow behaviour.
-/

namespace SalsaDerived

/-- Revisions: opaque, strictly increasing counter (modelled as `Nat`). -/
abbrev Revision := Nat

/-- Durability: ordered classification, higher licenses skipping more
revalidation (modelled as `Nat`). -/
abbrev Durability := Nat

/-- `StampedValue { value, durability, changed_at }` from `runtime.rs`. -/
structure StampedValue (V : Type) where
  value : V
  durability : Durability
  changed_at : Revision
deriving DecidableEq, Repr

/-- `DatabaseKeyIndex { group_index, query_index, key_index }`. -/
structure DatabaseKeyIndex where
  group_index : Nat
  query_index : Nat
  key_index : Nat
deriving DecidableEq, Repr

/-- A panic raised by a memoization policy (`NeverMemoizeValue`'s
`memoized_value_eq` body is `panic\x21(..)` in the source). -/
inductive PolicyPanic where
  | panicked (msg : String)
deriving DecidableEq, Repr

/-- Control signals that unwind a fetch (spec section 7): cancellation,
cycle detection, internal invariant violation, or a policy panic. -/
inductive Signal where
  | Cancelled
  | CycleDetected
  | InvariantViolation
  | Panicked (p : PolicyPanic)
deriving DecidableEq, Repr

/-- Modelled from the spec: the memo stored in a `Memoized` slot (`slot.rs`
is not among the available sources).  `value` is optional because
dependency-only policies store no value; `changed_at` is the revision the
value last actually changed (subject to backdating); `verified_at` is the
revision at which the memo was last confirmed valid; `stale_at` records an
explicit invalidation ("mark it stale as of `new_revision`"). -/
structure Memo (V : Type) where
  value : Option V
  durability : Durability
  changed_at : Revision
  verified_at : Revision
  stale_at : Option Revision
deriving DecidableEq, Repr

/-- Modelled from the spec: slot states Unresolved → InProgress →
Memoized (spec section 4.1). -/
inductive SlotState (V : Type) where
  | unresolved
  | inProgress
  | memoized (m : Memo V)
deriving DecidableEq, Repr

/-- Modelled from the spec: one memo cell per (storage, key); holds the key,
its stable address and the state machine (`Slot::new` in `slot.rs`). -/
structure Slot (K V : Type) where
  key : K
  database_key_index : DatabaseKeyIndex
  state : SlotState V
deriving DecidableEq, Repr

/-- `CycleRecoveryStrategy` from `plumbing.rs`: fatal or fallback. -/
inductive CycleRecoveryStrategy where
  | Fatal
  | Fallback
deriving DecidableEq, Repr

/-- The `MemoizationPolicy<Q>` trait of `derived.rs` (lines 79-86).
`memoized_value_eq` returns in `Except PolicyPanic` so that the
unconditional panic in `NeverMemoizeValue` is representable. -/
structure MemoizationPolicy (K V : Type) where
  should_memoize_value : K → Bool
  memoized_value_eq : V → V → Except PolicyPanic Bool

/-- `AlwaysMemoizeValue` (derived.rs lines 88-101): store every value,
compare with `==` (the `Q::Value: Eq` bound). -/
def AlwaysMemoizeValue (K V : Type) [DecidableEq V] : MemoizationPolicy K V where
  should_memoize_value := fun _ => true
  memoized_value_eq := fun old_value new_value => .ok (decide (old_value = new_value))

/-- `NeverMemoizeValue` (derived.rs lines 103-115): never store a value;
`memoized_value_eq` unconditionally panics. -/
def NeverMemoizeValue (K V : Type) : MemoizationPolicy K V where
  should_memoize_value := fun _ => false
  memoized_value_eq := fun _ _ => .error (.panicked "cannot reach since we never memoize")

/-- The static data of one query type `Q`: `QUERY_INDEX`, `CYCLE_STRATEGY`,
the memoization policy `MP`, the pure execution function (returning the
value and the durability of the inputs it read), and the declared cycle
fallback (used only by the `Fallback` strategy). -/
structure QueryConfig (K V : Type) where
  query_index : Nat
  cycle_strategy : CycleRecoveryStrategy
  policy : MemoizationPolicy K V
  execute : K → V × Durability
  cycle_fallback : K → V × Durability

/-- Modelled from the spec: the runtime state a read consults — current
revision, cancellation flag, the per-durability "last changed" revision
table, and the caller's active query stack (spec sections 4.3, 5). -/
structure Ctx where
  revision : Revision
  cancelled : Bool
  lastChanged : Durability → Revision
  stack : List DatabaseKeyIndex

/-- Modelled from the spec: a memo is still valid for the current revision
when it has not been explicitly invalidated and either it was verified at
the current revision or its durability licenses skipping revalidation
(nothing of its durability class changed since it was verified). -/
def memoValid (ctx : Ctx) {V : Type} (m : Memo V) : Bool :=
  m.stale_at.isNone &&
    (m.verified_at == ctx.revision || decide (ctx.lastChanged m.durability ≤ m.verified_at))

/-- Modelled from the spec: recomputation of a slot's memo (spec section
4.1).  Runs the query function; when an old memo with a stored value
exists, compares old and new value with the policy's `memoized_value_eq`
and, on equivalence, backdates `changed_at` to the old memo's `changed_at`;
stores the value only when `should_memoize_value` says so. -/
def recompute {K V : Type} (cfg : QueryConfig K V) (ctx : Ctx) (key : K)
    (old : Option (Memo V)) : Except PolicyPanic (V × Memo V) :=
  let vd := cfg.execute key
  let backdateE : Except PolicyPanic Bool :=
    match old with
    | some om =>
      match om.value with
      | some ov => cfg.policy.memoized_value_eq ov vd.1
      | none => .ok false
    | none => .ok false
  match backdateE with
  | .error p => .error p
  | .ok backdate =>
    .ok (vd.1,
      { value := if cfg.policy.should_memoize_value key then some vd.1 else none
        durability := vd.2
        changed_at :=
          if backdate then
            match old with
            | some om => om.changed_at
            | none => ctx.revision
          else ctx.revision
        verified_at := ctx.revision
        stale_at := none })

/-- Modelled from the spec: `Slot::read` (spec section 4.1).  Check
cancellation, then the active query stack for a cycle, then either return
the cached stamp (re-executing on demand when the policy stores no value)
or recompute.  Returns the outcome, the slot's new state, and how many
times the user query function was executed (0 or 1). -/
def slotRead {K V : Type} (cfg : QueryConfig K V) (ctx : Ctx) (s : Slot K V) :
    Except Signal (StampedValue V) × SlotState V × Nat :=
  if ctx.cancelled then (.error .Cancelled, s.state, 0)
  else if s.database_key_index ∈ ctx.stack then
    match cfg.cycle_strategy with
    | .Fatal => (.error .CycleDetected, s.state, 0)
    | .Fallback =>
      let vd := cfg.cycle_fallback s.key
      (.ok ⟨vd.1, vd.2, ctx.revision⟩, s.state, 0)
  else
    match s.state with
    | .memoized m =>
      if memoValid ctx m then
        match m.value with
        | some v =>
          (.ok ⟨v, m.durability, m.changed_at⟩,
            .memoized { m with verified_at := ctx.revision }, 0)
        | none =>
          let vd := cfg.execute s.key
          (.ok ⟨vd.1, m.durability, m.changed_at⟩,
            .memoized { m with verified_at := ctx.revision }, 1)
      else
        match recompute cfg ctx s.key (some m) with
        | .error p => (.error (.Panicked p), s.state, 1)
        | .ok vm => (.ok ⟨vm.1, vm.2.durability, vm.2.changed_at⟩, .memoized vm.2, 1)
    | _ =>
      match recompute cfg ctx s.key none with
      | .error p => (.error (.Panicked p), s.state, 1)
      | .ok vm => (.ok ⟨vm.1, vm.2.durability, vm.2.changed_at⟩, .memoized vm.2, 1)

/-- Modelled from the spec: `Slot::invalidate(new_revision)` — if the slot
holds a memoized value, mark it stale as of `new_revision` and return the
prior durability; otherwise return nothing (spec section 4.1). -/
def Slot.invalidate {K V : Type} (s : Slot K V) (new_revision : Revision) :
    Option Durability × Slot K V :=
  match s.state with
  | .memoized m =>
    (some m.durability,
      { s with state := .memoized { m with stale_at := some new_revision } })
  | _ => (none, s)

/-- Modelled from the spec: `Slot::evict` — discard the memoized payload,
retaining only identity and address; next read recomputes from scratch. -/
def Slot.evict {K V : Type} (s : Slot K V) : Slot K V :=
  match s.state with
  | .memoized _ => { s with state := .unresolved }
  | _ => s

/-- `Slot::as_table_entry`: memoized slots yield their key and (optional)
stored value; other states yield nothing. -/
def Slot.as_table_entry {K V : Type} (s : Slot K V) : Option (K × Option V) :=
  match s.state with
  | .memoized m => some (s.key, m.value)
  | _ => none

/-- Modelled from the spec: the LRU list records usage order only; capacity
0 means the LRU bound is disabled (`lru.rs` is not among the available
sources). -/
structure LruState where
  capacity : Nat
  entries : List Nat
deriving DecidableEq, Repr

/-- Modelled from the spec: `Lru::record_use` — move the used slot's index
to the front; every index beyond the capacity is returned for eviction. -/
def LruState.record_use (l : LruState) (idx : Nat) : LruState × List Nat :=
  if l.capacity = 0 then (l, [])
  else
    let es := idx :: List.erase l.entries idx
    ({ l with entries := es.take l.capacity }, es.drop l.capacity)

/-- Modelled from the spec: `Lru::purge` drops all recency state. -/
def LruState.purge (l : LruState) : LruState :=
  { l with entries := [] }

/-- `DerivedGlobalStorage<Q, MP>` (derived.rs lines 49-59): group index,
LRU list, and the insertion-ordered key→slot map (`FxIndexMap`, modelled
as an insertion-ordered association list). -/
structure DerivedGlobalStorage (K V : Type) where
  group_index : Nat
  slot_map : List (K × Slot K V)
  lru_list : LruState
deriving DecidableEq, Repr

/-- `GlobalQueryStorageOps::new` (derived.rs lines 202-209) with the given
LRU capacity. -/
def DerivedGlobalStorage.new (K V : Type) (group_index capacity : Nat) :
    DerivedGlobalStorage K V :=
  { group_index := group_index, slot_map := [], lru_list := ⟨capacity, []⟩ }

/-- Position of `key` in the insertion-ordered map (`FxIndexMap::get` /
`Entry::index`). -/
def lookupIdx {K V : Type} [DecidableEq K] : List (K × Slot K V) → K → Option Nat
  | [], _ => none
  | p :: rest, key => if p.1 = key then some 0 else (lookupIdx rest key).map (· + 1)

/-- The exclusive-write phase of `DerivedGlobalStorage::slot` (derived.rs
lines 233-243): under the write lock, `entry(key)` re-checks for a
concurrently inserted slot; on a true miss a fresh slot is inserted at the
next insertion index and `key_index` is that index. -/
def slotWritePhase {K V : Type} [DecidableEq K] (cfg : QueryConfig K V)
    (σ : DerivedGlobalStorage K V) (key : K) : DerivedGlobalStorage K V × Nat :=
  match lookupIdx σ.slot_map key with
  | some i => (σ, i)
  | none =>
    let key_index := σ.slot_map.length
    let dki : DatabaseKeyIndex :=
      { group_index := σ.group_index, query_index := cfg.query_index, key_index := key_index }
    ({ σ with slot_map := σ.slot_map ++ [(key, ⟨key, dki, .unresolved⟩)] }, key_index)

/-- `DerivedGlobalStorage::slot` (derived.rs lines 228-244): optimistic
shared-read lookup, then upgrade to the exclusive-write phase on a miss. -/
def DerivedGlobalStorage.slot {K V : Type} [DecidableEq K] (cfg : QueryConfig K V)
    (σ : DerivedGlobalStorage K V) (key : K) : DerivedGlobalStorage K V × Nat :=
  match lookupIdx σ.slot_map key with
  | some i => (σ, i)
  | none => slotWritePhase cfg σ key

/-- Clear the memoized payload of the slot at index `e` (the
`evicted.evict()` call in `fetch`, derived.rs lines 287-289). -/
def DerivedGlobalStorage.evictAt {K V : Type} (σ : DerivedGlobalStorage K V) (e : Nat) :
    DerivedGlobalStorage K V :=
  match σ.slot_map[e]? with
  | some p => { σ with slot_map := σ.slot_map.set e (p.1, p.2.evict) }
  | none => σ

/-- The tail of `fetch`'s successful path (derived.rs lines 281-289): store
the slot's new state back at index `i`, record the use in the LRU list and
evict the overflow. -/
def postStore {K V : Type} (σ : DerivedGlobalStorage K V) (i : Nat) (k : K)
    (s : Slot K V) (st : SlotState V) : DerivedGlobalStorage K V :=
  let withSlot := { σ with slot_map := σ.slot_map.set i (k, { s with state := st }) }
  let le := withSlot.lru_list.record_use i
  le.2.foldl DerivedGlobalStorage.evictAt { withSlot with lru_list := le.1 }

/-- `DerivedGlobalStorage::fetch` (derived.rs lines 277-299): check the
cancellation flag, locate or create the slot, read it, record the use in
the LRU list and evict the overflow, and return the stamped value (the
source returns the value and reports `durability` and `changed_at` to the
runtime; the model returns the full stamp).  The third component counts
executions of the user query function during this call. -/
def fetch {K V : Type} [DecidableEq K] (cfg : QueryConfig K V) (ctx : Ctx)
    (σ : DerivedGlobalStorage K V) (key : K) :
    Except Signal (StampedValue V) × DerivedGlobalStorage K V × Nat :=
  if ctx.cancelled then (.error .Cancelled, σ, 0)
  else
    let si := σ.slot cfg key
    match si.1.slot_map[si.2]? with
    | none => (.error .InvariantViolation, si.1, 0)
    | some p =>
      let rsn := slotRead cfg ctx p.2
      match rsn.1 with
      | .error sig => (.error sig, si.1, rsn.2.2)
      | .ok sv => (.ok sv, postStore si.1 si.2 p.1 p.2 rsn.2.1, rsn.2.2)

/-- `QueryStorageMassOps::purge` for `DerivedGlobalStorage` (derived.rs
lines 217-220): purge the LRU list and replace the slot map by the empty
default. -/
def DerivedGlobalStorage.purge {K V : Type} (σ : DerivedGlobalStorage K V) :
    DerivedGlobalStorage K V :=
  { σ with lru_list := σ.lru_list.purge, slot_map := [] }

/-- `DerivedGlobalStorage::entries` (derived.rs lines 305-314): the
filter-map of `as_table_entry` over all slots. -/
def DerivedGlobalStorage.entries {K V : Type} (σ : DerivedGlobalStorage K V) :
    List (K × Option V) :=
  σ.slot_map.filterMap (fun p => p.2.as_table_entry)

/-- `DerivedGlobalStorage::invalidate` (derived.rs lines 316-333) inside
the runtime's `with_incremented_revision` scope (modelled from the spec:
the revision authority increments the revision, runs the closure, and marks
every durability up to the returned one as changed at the new revision).
Returns the closure's result, the new storage and the new runtime state. -/
def DerivedGlobalStorage.invalidate {K V : Type} [DecidableEq K] (ctx : Ctx)
    (σ : DerivedGlobalStorage K V) (key : K) :
    Option Durability × DerivedGlobalStorage K V × Ctx :=
  let new_revision := ctx.revision + 1
  let rσ :=
    match lookupIdx σ.slot_map key with
    | some i =>
      match σ.slot_map[i]? with
      | some p =>
        let ds := p.2.invalidate new_revision
        (ds.1, { σ with slot_map := σ.slot_map.set i (p.1, ds.2) })
      | none => (none, σ)
    | none => (none, σ)
  (rσ.1,
    rσ.2,
    { ctx with
      revision := new_revision
      lastChanged := fun d =>
        match rσ.1 with
        | some dur => if d ≤ dur then new_revision else ctx.lastChanged d
        | none => ctx.lastChanged d })

/-- `DerivedGlobalStorage::set_lru_capacity` (derived.rs lines 335-337). -/
def DerivedGlobalStorage.set_lru_capacity {K V : Type} (σ : DerivedGlobalStorage K V)
    (new_capacity : Nat) : DerivedGlobalStorage K V :=
  { σ with lru_list := { σ.lru_list with capacity := new_capacity } }

/-! ### Derived observations used by the theorems -/

/-- The memo currently held by `key`'s slot, if any. -/
def getMemo {K V : Type} [DecidableEq K] (σ : DerivedGlobalStorage K V) (key : K) :
    Option (Memo V) :=
  match lookupIdx σ.slot_map key with
  | some i =>
    match σ.slot_map[i]? with
    | some p =>
      match p.2.state with
      | .memoized m => some m
      | _ => none
    | none => none
  | none => none

/-- Written from the spec's words for `invalidate` ("if the slot currently
holds a memoized value, ... return its prior durability; returns nothing if
the slot was never computed"): the durability `invalidate` must report. -/
def specInvalidateResult {K V : Type} [DecidableEq K] (σ : DerivedGlobalStorage K V)
    (key : K) : Option Durability :=
  (getMemo σ key).map (fun m => m.durability)

/-- A slot retaining a live memoized payload. -/
def Slot.isLive {K V : Type} (s : Slot K V) : Bool :=
  match s.state with
  | .memoized _ => true
  | _ => false

/-- Indices of slots retaining a live memoized payload. -/
def liveIdxs {K V : Type} (σ : DerivedGlobalStorage K V) : List Nat :=
  (List.range σ.slot_map.length).filter fun i =>
    match σ.slot_map[i]? with
    | some p => p.2.isLive
    | none => false

/-- Number of slots retaining a live memoized payload. -/
def liveCount {K V : Type} (σ : DerivedGlobalStorage K V) : Nat :=
  (liveIdxs σ).length

/-- Run a sequence of fetches (each with its own runtime state), keeping
only the storage. -/
def runFetches {K V : Type} [DecidableEq K] (cfg : QueryConfig K V)
    (ops : List (Ctx × K)) (σ : DerivedGlobalStorage K V) : DerivedGlobalStorage K V :=
  ops.foldl (fun acc op => (fetch cfg op.1 acc op.2).2.1) σ

/-- The LRU bookkeeping invariant: the recency list has no duplicates, is
within capacity, and covers every slot holding a live payload. -/
def LruInv {K V : Type} (σ : DerivedGlobalStorage K V) : Prop :=
  σ.lru_list.entries.Nodup ∧
  σ.lru_list.entries.length ≤ σ.lru_list.capacity ∧
  ∀ i p, σ.slot_map[i]? = some p → p.2.isLive = true → i ∈ σ.lru_list.entries

/-- Addressing invariant: the slot stored at insertion position `i` carries
the address `(group_index, query_index, i)` and records its own key. -/
def addressOk {K V : Type} [DecidableEq K] (cfg : QueryConfig K V)
    (σ : DerivedGlobalStorage K V) : Bool :=
  (List.range σ.slot_map.length).all fun i =>
    match σ.slot_map[i]? with
    | some p =>
      decide (p.2.database_key_index =
        ⟨σ.group_index, cfg.query_index, i⟩) && decide (p.2.key = p.1)
    | none => false

/-- A slot state holding no stored value. -/
def stateNoValue {V : Type} (st : SlotState V) : Bool :=
  match st with
  | .memoized m => m.value.isNone
  | _ => true

/-- No slot stores a value (the reachable states of a dependency-only
storage). -/
def NoStoredValues {K V : Type} (σ : DerivedGlobalStorage K V) : Bool :=
  σ.slot_map.all fun p => stateNoValue p.2.state

/-- Whether a fetch outcome is a memoization-policy panic. -/
def isPanicked {V : Type} (r : Except Signal (StampedValue V)) : Bool :=
  match r with
  | .error (.Panicked _) => true
  | _ => false

/-! ### Concrete instances used by the witnesses -/

/-- A memoizing query over `Nat`: `double(x) = x * 2` with low durability. -/
def dblCfg : QueryConfig Nat Nat :=
  { query_index := 7
    cycle_strategy := .Fatal
    policy := AlwaysMemoizeValue Nat Nat
    execute := fun k => (2 * k, 0)
    cycle_fallback := fun _ => (0, 0) }

/-- The same query as a dependency-only (never-memoize) query. -/
def depCfg : QueryConfig Nat Nat :=
  { query_index := 8
    cycle_strategy := .Fatal
    policy := NeverMemoizeValue Nat Nat
    execute := fun k => (2 * k, 0)
    cycle_fallback := fun _ => (0, 0) }

/-- Quiescent runtime at revision 0. -/
def ctx0 : Ctx :=
  { revision := 0, cancelled := false, lastChanged := fun _ => 0, stack := [] }

/-- Runtime with the cancellation flag raised. -/
def ctxCancelled : Ctx :=
  { revision := 0, cancelled := true, lastChanged := fun _ => 0, stack := [] }

/-- Runtime whose active query stack already holds address `(3, 7, 0)`. -/
def ctxOnStack : Ctx :=
  { revision := 0, cancelled := false, lastChanged := fun _ => 0
    stack := [⟨3, 7, 0⟩] }

/-- Empty storage for group 3 with the LRU bound disabled. -/
def sigEmpty : DerivedGlobalStorage Nat Nat := DerivedGlobalStorage.new Nat Nat 3 0

/-- Empty storage for group 3 with LRU capacity 1. -/
def sigCap1 : DerivedGlobalStorage Nat Nat := DerivedGlobalStorage.new Nat Nat 3 1

/-- Storage whose single slot (key 5, address `(3, 7, 0)`) is mid-computation. -/
def sigInProgress : DerivedGlobalStorage Nat Nat :=
  { group_index := 3
    slot_map := [(5, ⟨5, ⟨3, 7, 0⟩, .inProgress⟩)]
    lru_list := ⟨0, []⟩ }

/-- Storage whose single slot holds a memo computed and verified at
revision 0 but stale relative to a durability-0 change at revision 1. -/
def sigStale : DerivedGlobalStorage Nat Nat :=
  { group_index := 3
    slot_map := [(21, ⟨21, ⟨3, 7, 0⟩, .memoized ⟨some 42, 0, 0, 0, none⟩⟩)]
    lru_list := ⟨0, []⟩ }

/-- Runtime at revision 1 after a durability-0 change at revision 1. -/
def ctxRev1 : Ctx :=
  { revision := 1, cancelled := false
    lastChanged := fun d => if d = 0 then 1 else 0, stack := [] }

/-! ### Lemmas about the insertion-ordered map -/

section MapLemmas

variable {K V : Type} [DecidableEq K]

theorem lookupIdx_lt_length {m : List (K × Slot K V)} {key : K} {i : Nat}
    (h : lookupIdx m key = some i) : i < m.length := by
  induction m generalizing i with
  | nil => simp [lookupIdx] at h
  | cons p rest ih =>
    by_cases hp : p.1 = key
    · simp [lookupIdx, hp] at h
      simp only [List.length_cons]
      omega
    · simp only [lookupIdx, hp, if_false, Option.map_eq_some'] at h
      obtain ⟨j, hj, rfl⟩ := h
      simpa using Nat.succ_lt_succ (ih hj)

theorem lookupIdx_get {m : List (K × Slot K V)} {key : K} {i : Nat}
    (h : lookupIdx m key = some i) : ∃ s, m[i]? = some (key, s) := by
  induction m generalizing i with
  | nil => simp [lookupIdx] at h
  | cons p rest ih =>
    by_cases hp : p.1 = key
    · simp [lookupIdx, hp] at h
      subst h
      exact ⟨p.2, by simp [← hp]⟩
    · simp only [lookupIdx, hp, if_false, Option.map_eq_some'] at h
      obtain ⟨j, hj, rfl⟩ := h
      simpa using ih hj

theorem lookupIdx_append_left {m l : List (K × Slot K V)} {key : K} {i : Nat}
    (h : lookupIdx m key = some i) : lookupIdx (m ++ l) key = some i := by
  induction m generalizing i with
  | nil => simp [lookupIdx] at h
  | cons p rest ih =>
    by_cases hp : p.1 = key
    · simp [lookupIdx, hp] at h ⊢
      omega
    · simp only [lookupIdx, hp, if_false, Option.map_eq_some'] at h
      obtain ⟨j, hj, rfl⟩ := h
      simp only [List.cons_append, lookupIdx, hp, if_false, List.append_eq]
      rw [ih hj]
      rfl

theorem lookupIdx_append_fresh {m : List (K × Slot K V)} {key : K} (s : Slot K V)
    (h : lookupIdx m key = none) :
    lookupIdx (m ++ [(key, s)]) key = some m.length := by
  induction m with
  | nil => simp [lookupIdx]
  | cons p rest ih =>
    by_cases hp : p.1 = key
    · simp [lookupIdx, hp] at h
    · simp only [lookupIdx, hp, if_false, Option.map_eq_none'] at h
      simp [lookupIdx, hp, ih h]

theorem lookupIdx_set_fst {m : List (K × Slot K V)} {i : Nat} {p q : K × Slot K V}
    (hm : m[i]? = some p) (hfst : q.1 = p.1) (key : K) :
    lookupIdx (m.set i q) key = lookupIdx m key := by
  induction m generalizing i with
  | nil => simp at hm
  | cons a rest ih =>
    cases i with
    | zero =>
      simp only [List.getElem?_cons_zero, Option.some_inj] at hm
      subst hm
      simp [lookupIdx, hfst]
    | succ n =>
      simp only [List.getElem?_cons_succ] at hm
      simp [lookupIdx, ih hm]

end MapLemmas

/-! ### Lemmas about eviction, the LRU list and the fetch tail -/

section EvictLemmas

theorem evictAt_getElem_ne {K V : Type} (σ : DerivedGlobalStorage K V) {e i : Nat}
    (h : e ≠ i) : (σ.evictAt e).slot_map[i]? = σ.slot_map[i]? := by
  unfold DerivedGlobalStorage.evictAt
  cases hg : σ.slot_map[e]? with
  | none => rfl
  | some p => simp [List.getElem?_set_ne h]

theorem evictAt_lookup {K V : Type} [DecidableEq K] (σ : DerivedGlobalStorage K V)
    (e : Nat) (key : K) :
    lookupIdx (σ.evictAt e).slot_map key = lookupIdx σ.slot_map key := by
  unfold DerivedGlobalStorage.evictAt
  cases hg : σ.slot_map[e]? with
  | none => rfl
  | some p =>
    dsimp only
    exact @lookupIdx_set_fst K V _ _ e p (p.1, p.2.evict) hg rfl key

theorem evictAt_lru {K V : Type} (σ : DerivedGlobalStorage K V) (e : Nat) :
    (σ.evictAt e).lru_list = σ.lru_list := by
  unfold DerivedGlobalStorage.evictAt
  cases σ.slot_map[e]? <;> rfl

theorem evictFold_getElem_not_mem {K V : Type} {E : List Nat}
    {σ : DerivedGlobalStorage K V} {i : Nat} (h : i ∉ E) :
    (E.foldl DerivedGlobalStorage.evictAt σ).slot_map[i]? = σ.slot_map[i]? := by
  induction E generalizing σ with
  | nil => rfl
  | cons e rest ih =>
    have hne : e ≠ i := fun he => h (he ▸ List.mem_cons_self e rest)
    have hr : i ∉ rest := fun hi => h (List.mem_cons_of_mem e hi)
    simp only [List.foldl_cons]
    rw [ih hr, evictAt_getElem_ne σ hne]

theorem evictFold_lookup {K V : Type} [DecidableEq K] (E : List Nat)
    (σ : DerivedGlobalStorage K V) (key : K) :
    lookupIdx (E.foldl DerivedGlobalStorage.evictAt σ).slot_map key =
      lookupIdx σ.slot_map key := by
  induction E generalizing σ with
  | nil => rfl
  | cons e rest ih =>
    simp only [List.foldl_cons]
    rw [ih, evictAt_lookup]

theorem record_use_not_mem_self (l : LruState) (idx : Nat) (hnd : l.entries.Nodup) :
    idx ∉ (l.record_use idx).2 := by
  unfold LruState.record_use
  by_cases hc : l.capacity = 0
  · simp [hc]
  · simp only [hc, if_false]
    intro hmem
    rcases Nat.exists_eq_succ_of_ne_zero hc with ⟨c, hcs⟩
    rw [hcs] at hmem
    simp only [List.drop_succ_cons] at hmem
    exact hnd.not_mem_erase (List.drop_subset _ _ hmem)

theorem postStore_lookup {K V : Type} [DecidableEq K] (σ : DerivedGlobalStorage K V)
    (i : Nat) {k : K} {s : Slot K V}
    (st : SlotState V) (hs : σ.slot_map[i]? = some (k, s)) (key : K) :
    lookupIdx (postStore σ i k s st).slot_map key = lookupIdx σ.slot_map key := by
  unfold postStore
  rw [evictFold_lookup]
  dsimp only
  exact @lookupIdx_set_fst K V _ _ i (k, s) (k, { s with state := st }) hs rfl key

theorem postStore_getElem_self {K V : Type} (σ : DerivedGlobalStorage K V) (i : Nat) {k : K}
    {s : Slot K V} (st : SlotState V) (hs : σ.slot_map[i]? = some (k, s))
    (hnd : σ.lru_list.entries.Nodup) :
    (postStore σ i k s st).slot_map[i]? = some (k, { s with state := st }) := by
  have hlt : i < σ.slot_map.length := by
    rcases List.getElem?_eq_some_iff.mp hs with ⟨hl, _⟩
    exact hl
  unfold postStore
  rw [evictFold_getElem_not_mem (record_use_not_mem_self _ i hnd)]
  simp [List.getElem?_set_self (by simpa using hlt)]

end EvictLemmas

/-! ### Characterizations of slot lookup and fetch -/

section FetchLemmas

variable {K V : Type} [DecidableEq K]

theorem slot_found {cfg : QueryConfig K V} {σ : DerivedGlobalStorage K V} {key : K} {i : Nat}
    (hlk : lookupIdx σ.slot_map key = some i) :
    σ.slot cfg key = (σ, i) := by
  unfold DerivedGlobalStorage.slot
  rw [hlk]

theorem slot_fresh {cfg : QueryConfig K V} {σ : DerivedGlobalStorage K V} {key : K}
    (hlk : lookupIdx σ.slot_map key = none) :
    σ.slot cfg key =
      ({ σ with slot_map := σ.slot_map ++
          [(key, ⟨key, ⟨σ.group_index, cfg.query_index, σ.slot_map.length⟩, .unresolved⟩)] },
        σ.slot_map.length) := by
  unfold DerivedGlobalStorage.slot slotWritePhase
  rw [hlk]

theorem fetch_found_error {cfg : QueryConfig K V} {ctx : Ctx} {σ : DerivedGlobalStorage K V}
    {key : K} {i : Nat} {k : K} {s : Slot K V} {sig : Signal}
    (hc : ctx.cancelled = false) (hlk : lookupIdx σ.slot_map key = some i)
    (hs : σ.slot_map[i]? = some (k, s)) (hr : (slotRead cfg ctx s).1 = .error sig) :
    fetch cfg ctx σ key = (.error sig, σ, (slotRead cfg ctx s).2.2) := by
  unfold fetch
  rw [hc]
  simp only [Bool.false_eq_true, if_false, slot_found hlk]
  rw [hs]
  simp only [hr]

theorem fetch_found_ok {cfg : QueryConfig K V} {ctx : Ctx} {σ : DerivedGlobalStorage K V}
    {key : K} {i : Nat} {k : K} {s : Slot K V} {sv : StampedValue V}
    (hc : ctx.cancelled = false) (hlk : lookupIdx σ.slot_map key = some i)
    (hs : σ.slot_map[i]? = some (k, s)) (hr : (slotRead cfg ctx s).1 = .ok sv) :
    fetch cfg ctx σ key =
      (.ok sv, postStore σ i k s (slotRead cfg ctx s).2.1, (slotRead cfg ctx s).2.2) := by
  unfold fetch
  rw [hc]
  simp only [Bool.false_eq_true, if_false, slot_found hlk]
  rw [hs]
  simp only [hr]

theorem slot_lookup_self (cfg : QueryConfig K V) (σ : DerivedGlobalStorage K V) (key : K) :
    lookupIdx (σ.slot cfg key).1.slot_map key = some (σ.slot cfg key).2 := by
  cases hlk : lookupIdx σ.slot_map key with
  | some i => rw [slot_found hlk]; exact hlk
  | none =>
    rw [slot_fresh hlk]
    exact lookupIdx_append_fresh _ hlk

theorem fetch_slotted {cfg : QueryConfig K V} {ctx : Ctx} {σ : DerivedGlobalStorage K V}
    {key : K} (hc : ctx.cancelled = false) :
    fetch cfg ctx σ key = fetch cfg ctx (σ.slot cfg key).1 key := by
  cases hlk : lookupIdx σ.slot_map key with
  | some i => rw [slot_found hlk]
  | none =>
    rw [slot_fresh hlk]
    unfold fetch
    rw [hc]
    simp only [Bool.false_eq_true, if_false, slot_fresh hlk]
    rw [slot_found (lookupIdx_append_fresh _ hlk)]


theorem fetch_cancelled_eq {K V : Type} [DecidableEq K] {cfg : QueryConfig K V}
    {ctx : Ctx} {σ : DerivedGlobalStorage K V} {key : K} (h : ctx.cancelled = true) :
    fetch cfg ctx σ key = (.error .Cancelled, σ, 0) := by
  unfold fetch
  rw [h]
  simp

end FetchLemmas


/-! ### Lemmas about getMemo -/

theorem getMemo_none {K V : Type} [DecidableEq K] {σ : DerivedGlobalStorage K V}
    {key : K} (hlk : lookupIdx σ.slot_map key = none) : getMemo σ key = none := by
  unfold getMemo
  rw [hlk]

theorem getMemo_eq {K V : Type} [DecidableEq K] {σ : DerivedGlobalStorage K V}
    {key : K} {i : Nat} {p : K × Slot K V}
    (hlk : lookupIdx σ.slot_map key = some i) (hg : σ.slot_map[i]? = some p) :
    getMemo σ key =
      match p.2.state with
      | .memoized m => some m
      | _ => none := by
  unfold getMemo
  rw [hlk]
  dsimp only
  rw [hg]

theorem getMemo_set {K V : Type} [DecidableEq K] {σ : DerivedGlobalStorage K V}
    {key : K} {i : Nat} {p : K × Slot K V}
    (hlk : lookupIdx σ.slot_map key = some i) (hg : σ.slot_map[i]? = some p)
    (s : Slot K V) :
    getMemo { σ with slot_map := σ.slot_map.set i (p.1, s) } key =
      match s.state with
      | .memoized m => some m
      | _ => none := by
  have hlt := lookupIdx_lt_length hlk
  unfold getMemo
  rw [show ({ σ with slot_map := σ.slot_map.set i (p.1, s) } :
      DerivedGlobalStorage K V).slot_map = σ.slot_map.set i (p.1, s) from rfl]
  rw [@lookupIdx_set_fst K V _ _ i p (p.1, s) hg rfl key, hlk]
  dsimp only
  rw [List.getElem?_set_self (by simpa using hlt)]

/-! ### Lemmas for the no-stored-value invariant -/

theorem recompute_ok_none {K V : Type} (cfg : QueryConfig K V) (ctx : Ctx) (key : K) :
    recompute cfg ctx key none =
      .ok ((cfg.execute key).1,
        { value := if cfg.policy.should_memoize_value key then
              some (cfg.execute key).1 else none
          durability := (cfg.execute key).2
          changed_at := ctx.revision
          verified_at := ctx.revision
          stale_at := none }) := rfl

theorem recompute_ok_novalue {K V : Type} (cfg : QueryConfig K V) (ctx : Ctx) (key : K)
    {m : Memo V} (hm : m.value = none) :
    recompute cfg ctx key (some m) =
      .ok ((cfg.execute key).1,
        { value := if cfg.policy.should_memoize_value key then
              some (cfg.execute key).1 else none
          durability := (cfg.execute key).2
          changed_at := ctx.revision
          verified_at := ctx.revision
          stale_at := none }) := by
  obtain ⟨mv, md, mc, mvf, ms⟩ := m
  have h2 : mv = none := hm
  subst h2
  rfl

theorem slotRead_novalue_safe {K V : Type} (cfg : QueryConfig K V) (ctx : Ctx)
    (s : Slot K V) (hpol : cfg.policy = NeverMemoizeValue K V)
    (hs : stateNoValue s.state = true) :
    isPanicked (slotRead cfg ctx s).1 = false ∧
      stateNoValue (slotRead cfg ctx s).2.1 = true := by
  obtain ⟨sk, sdki, sst⟩ := s
  simp only [stateNoValue] at hs
  unfold slotRead
  by_cases hc : ctx.cancelled = true
  · simp only [hc, if_true]
    exact ⟨rfl, hs⟩
  · have hc2 : ctx.cancelled = false := by simpa using hc
    rw [hc2]
    simp only [Bool.false_eq_true, if_false]
    by_cases hstk : sdki ∈ ctx.stack
    · simp only [hstk, if_true]
      cases cfg.cycle_strategy <;> exact ⟨rfl, hs⟩
    · simp only [hstk, if_false]
      cases sst with
      | memoized m =>
        have hm : m.value = none := by
          simpa [Option.isNone_iff_eq_none] using hs
        by_cases hv : memoValid ctx m = true
        · simp [hv, hm, isPanicked, stateNoValue]
        · have hv2 : memoValid ctx m = false := by simpa using hv
          simp only [hv2, Bool.false_eq_true, if_false]
          rw [recompute_ok_novalue cfg ctx sk hm, hpol]
          simp [isPanicked, stateNoValue, NeverMemoizeValue]
      | unresolved =>
        simp only []
        rw [recompute_ok_none, hpol]
        simp [isPanicked, stateNoValue, NeverMemoizeValue]
      | inProgress =>
        simp only []
        rw [recompute_ok_none, hpol]
        simp [isPanicked, stateNoValue, NeverMemoizeValue]

theorem NoStoredValues_set {K V : Type} (σ : DerivedGlobalStorage K V) (i : Nat) (k : K)
    (s : Slot K V) (h : NoStoredValues σ = true) (hs : stateNoValue s.state = true) :
    NoStoredValues { σ with slot_map := σ.slot_map.set i (k, s) } = true := by
  unfold NoStoredValues at h ⊢
  rw [List.all_eq_true] at h ⊢
  intro x hx
  rcases List.mem_or_eq_of_mem_set hx with hmem | rfl
  · exact h x hmem
  · exact hs

theorem stateNoValue_evict {K V : Type} (s : Slot K V) :
    stateNoValue s.evict.state = true := by
  obtain ⟨sk, sdki, sst⟩ := s
  unfold Slot.evict
  cases sst <;> rfl

theorem NoStoredValues_evictAt {K V : Type} (σ : DerivedGlobalStorage K V) (e : Nat)
    (h : NoStoredValues σ = true) : NoStoredValues (σ.evictAt e) = true := by
  unfold DerivedGlobalStorage.evictAt
  cases hg : σ.slot_map[e]? with
  | none => exact h
  | some p =>
    dsimp only
    exact NoStoredValues_set σ e p.1 p.2.evict h (stateNoValue_evict p.2)

theorem NoStoredValues_evictFold {K V : Type} (E : List Nat)
    (σ : DerivedGlobalStorage K V) (h : NoStoredValues σ = true) :
    NoStoredValues (E.foldl DerivedGlobalStorage.evictAt σ) = true := by
  induction E generalizing σ with
  | nil => exact h
  | cons e rest ih =>
    simp only [List.foldl_cons]
    exact ih _ (NoStoredValues_evictAt σ e h)

theorem NoStoredValues_postStore {K V : Type} (σ : DerivedGlobalStorage K V) (i : Nat)
    (k : K) (s : Slot K V) (st : SlotState V) (h : NoStoredValues σ = true)
    (hst : stateNoValue st = true) : NoStoredValues (postStore σ i k s st) = true := by
  unfold postStore
  apply NoStoredValues_evictFold
  exact NoStoredValues_set σ i k { s with state := st } h hst

theorem NoStoredValues_slotted {K V : Type} [DecidableEq K] (cfg : QueryConfig K V)
    (σ : DerivedGlobalStorage K V) (key : K) (h : NoStoredValues σ = true) :
    NoStoredValues (σ.slot cfg key).1 = true := by
  cases hlk : lookupIdx σ.slot_map key with
  | some i => rw [slot_found hlk]; exact h
  | none =>
    rw [slot_fresh hlk]
    unfold NoStoredValues at h ⊢
    simp only [List.all_append, h, Bool.true_and]
    rfl

/-! ### Characterizations of the slot read paths -/

theorem memoValid_stale_none {V : Type} {ctx : Ctx} {m : Memo V}
    (h : memoValid ctx m = true) : m.stale_at = none := by
  unfold memoValid at h
  rcases Bool.and_eq_true_iff.mp h with ⟨h1, _⟩
  simpa [Option.isNone_iff_eq_none] using h1

theorem memoValid_verify {V : Type} (ctx : Ctx) {m : Memo V}
    (h : m.stale_at = none) :
    memoValid ctx { m with verified_at := ctx.revision } = true := by
  unfold memoValid
  simp [h]

theorem slotRead_stack_fatal {K V : Type} {cfg : QueryConfig K V} {ctx : Ctx}
    {s : Slot K V} (hc : ctx.cancelled = false)
    (hstk : s.database_key_index ∈ ctx.stack) (hcs : cfg.cycle_strategy = .Fatal) :
    slotRead cfg ctx s = (.error .CycleDetected, s.state, 0) := by
  unfold slotRead
  rw [hc, hcs]
  simp [hstk]

theorem slotRead_stack_fallback {K V : Type} {cfg : QueryConfig K V} {ctx : Ctx}
    {s : Slot K V} (hc : ctx.cancelled = false)
    (hstk : s.database_key_index ∈ ctx.stack) (hcs : cfg.cycle_strategy = .Fallback) :
    slotRead cfg ctx s =
      (.ok ⟨(cfg.cycle_fallback s.key).1, (cfg.cycle_fallback s.key).2, ctx.revision⟩,
        s.state, 0) := by
  unfold slotRead
  rw [hc, hcs]
  simp [hstk]

theorem slotRead_cached {K V : Type} {cfg : QueryConfig K V} {ctx : Ctx}
    {s : Slot K V} {m : Memo V} {v : V} (hc : ctx.cancelled = false)
    (hstk : s.database_key_index ∉ ctx.stack) (hst : s.state = .memoized m)
    (hv : memoValid ctx m = true) (hval : m.value = some v) :
    slotRead cfg ctx s =
      (.ok ⟨v, m.durability, m.changed_at⟩,
        .memoized { m with verified_at := ctx.revision }, 0) := by
  obtain ⟨sk, sdki, sst⟩ := s
  subst hst
  unfold slotRead
  rw [hc]
  simp only [Bool.false_eq_true, if_false]
  simp only [hstk, if_false]
  simp only [hv, if_true]
  rw [hval]

theorem recompute_ok_somevalue {K V : Type} (cfg : QueryConfig K V) (ctx : Ctx)
    (key : K) {m : Memo V} {ov : V} {bb : Bool} (hov : m.value = some ov)
    (heqb : cfg.policy.memoized_value_eq ov (cfg.execute key).1 = .ok bb) :
    recompute cfg ctx key (some m) =
      .ok ((cfg.execute key).1,
        { value := if cfg.policy.should_memoize_value key then
              some (cfg.execute key).1 else none
          durability := (cfg.execute key).2
          changed_at := if bb = true then m.changed_at else ctx.revision
          verified_at := ctx.revision
          stale_at := none }) := by
  obtain ⟨mv, md, mc, mvf, ms⟩ := m
  have h2 : mv = some ov := hov
  subst h2
  have hred : recompute cfg ctx key (some ⟨some ov, md, mc, mvf, ms⟩) =
      match cfg.policy.memoized_value_eq ov (cfg.execute key).1 with
      | .error p => .error p
      | .ok backdate =>
        .ok ((cfg.execute key).1,
          { value := if cfg.policy.should_memoize_value key then
                some (cfg.execute key).1 else none
            durability := (cfg.execute key).2
            changed_at := if backdate then mc else ctx.revision
            verified_at := ctx.revision
            stale_at := none }) := rfl
  rw [hred, heqb]

theorem slotRead_recompute {K V : Type} {cfg : QueryConfig K V} {ctx : Ctx}
    {s : Slot K V} {m : Memo V} {ov : V} {bb : Bool} (hc : ctx.cancelled = false)
    (hstk : s.database_key_index ∉ ctx.stack) (hst : s.state = .memoized m)
    (hv : memoValid ctx m = false) (hov : m.value = some ov)
    (heqb : cfg.policy.memoized_value_eq ov (cfg.execute s.key).1 = .ok bb) :
    slotRead cfg ctx s =
      (.ok ⟨(cfg.execute s.key).1, (cfg.execute s.key).2,
          if bb = true then m.changed_at else ctx.revision⟩,
        .memoized
          { value := if cfg.policy.should_memoize_value s.key then
                some (cfg.execute s.key).1 else none
            durability := (cfg.execute s.key).2
            changed_at := if bb = true then m.changed_at else ctx.revision
            verified_at := ctx.revision
            stale_at := none }, 1) := by
  obtain ⟨sk, sdki, sst⟩ := s
  subst hst
  unfold slotRead
  rw [hc]
  simp only [Bool.false_eq_true, if_false]
  simp only [hstk, if_false]
  simp only [hv, Bool.false_eq_true, if_false]
  rw [recompute_ok_somevalue cfg ctx sk hov heqb]

theorem slotRead_unresolved {K V : Type} {cfg : QueryConfig K V} {ctx : Ctx}
    {s : Slot K V} (hc : ctx.cancelled = false)
    (hstk : s.database_key_index ∉ ctx.stack) (hst : s.state = .unresolved) :
    slotRead cfg ctx s =
      (.ok ⟨(cfg.execute s.key).1, (cfg.execute s.key).2, ctx.revision⟩,
        .memoized
          { value := if cfg.policy.should_memoize_value s.key then
                some (cfg.execute s.key).1 else none
            durability := (cfg.execute s.key).2
            changed_at := ctx.revision
            verified_at := ctx.revision
            stale_at := none }, 1) := by
  obtain ⟨sk, sdki, sst⟩ := s
  subst hst
  unfold slotRead
  rw [hc]
  simp only [Bool.false_eq_true, if_false]
  simp only [hstk, if_false]
  rw [recompute_ok_none]

theorem slotRead_in_progress {K V : Type} {cfg : QueryConfig K V} {ctx : Ctx}
    {s : Slot K V} (hc : ctx.cancelled = false)
    (hstk : s.database_key_index ∉ ctx.stack) (hst : s.state = .inProgress) :
    slotRead cfg ctx s =
      (.ok ⟨(cfg.execute s.key).1, (cfg.execute s.key).2, ctx.revision⟩,
        .memoized
          { value := if cfg.policy.should_memoize_value s.key then
                some (cfg.execute s.key).1 else none
            durability := (cfg.execute s.key).2
            changed_at := ctx.revision
            verified_at := ctx.revision
            stale_at := none }, 1) := by
  obtain ⟨sk, sdki, sst⟩ := s
  subst hst
  unfold slotRead
  rw [hc]
  simp only [Bool.false_eq_true, if_false]
  simp only [hstk, if_false]
  rw [recompute_ok_none]

theorem slot_lru {K V : Type} [DecidableEq K] (cfg : QueryConfig K V)
    (σ : DerivedGlobalStorage K V) (key : K) :
    (σ.slot cfg key).1.lru_list = σ.lru_list := by
  cases hlk : lookupIdx σ.slot_map key with
  | some i => rw [slot_found hlk]
  | none => rw [slot_fresh hlk]

theorem getMemo_slotted_all {K V : Type} [DecidableEq K] (cfg : QueryConfig K V)
    (σ : DerivedGlobalStorage K V) (key : K) (f : Memo V → Bool)
    (hval : ((getMemo σ key).all f) = true) :
    ((getMemo (σ.slot cfg key).1 key).all f) = true := by
  cases hlk : lookupIdx σ.slot_map key with
  | some i => rw [slot_found hlk]; exact hval
  | none =>
    rw [slot_fresh hlk]
    have hg : (σ.slot_map ++
        [(key, (⟨key, ⟨σ.group_index, cfg.query_index, σ.slot_map.length⟩,
          .unresolved⟩ : Slot K V))])[σ.slot_map.length]? =
        some (key, ⟨key, ⟨σ.group_index, cfg.query_index, σ.slot_map.length⟩,
          .unresolved⟩) :=
      List.getElem?_concat_length _ _
    rw [getMemo_eq (lookupIdx_append_fresh _ hlk) hg]
    rfl

/-- A fetch from a storage whose slot for `key` sits at `i` holding a valid
memo with a stored value returns that memo's stamp without executing. -/
theorem fetch_cached_spec {K V : Type} [DecidableEq K] {cfg : QueryConfig K V}
    {ctx : Ctx} {σ : DerivedGlobalStorage K V} {key : K} {i : Nat} {s : Slot K V}
    {m : Memo V} {v : V} (hc : ctx.cancelled = false)
    (hlk : lookupIdx σ.slot_map key = some i) (hs : σ.slot_map[i]? = some (key, s))
    (hstk : s.database_key_index ∉ ctx.stack) (hst : s.state = .memoized m)
    (hv : memoValid ctx m = true) (hval : m.value = some v) :
    (fetch cfg ctx σ key).1 = .ok ⟨v, m.durability, m.changed_at⟩ ∧
      (fetch cfg ctx σ key).2.2 = 0 := by
  have hr := @slotRead_cached K V cfg ctx s m v hc hstk hst hv hval
  rw [fetch_found_ok hc hlk hs (by rw [hr])]
  rw [hr]
  exact ⟨rfl, rfl⟩

/-- After `postStore` wrote back a valid memo with a stored value, a second
fetch returns that memo's stamp and performs no execution. -/
theorem fetch_post_cached {K V : Type} [DecidableEq K] (cfg : QueryConfig K V)
    {ctx : Ctx} {σ : DerivedGlobalStorage K V} {key : K} {i : Nat} {s : Slot K V}
    {m : Memo V} {v : V} (hc : ctx.cancelled = false)
    (hlk : lookupIdx σ.slot_map key = some i) (hs : σ.slot_map[i]? = some (key, s))
    (hnd : σ.lru_list.entries.Nodup)
    (hstk : s.database_key_index ∉ ctx.stack)
    (hv : memoValid ctx m = true) (hval : m.value = some v) :
    (fetch cfg ctx (postStore σ i key s (.memoized m)) key).1 =
        .ok ⟨v, m.durability, m.changed_at⟩ ∧
      (fetch cfg ctx (postStore σ i key s (.memoized m)) key).2.2 = 0 := by
  have hlk2 : lookupIdx (postStore σ i key s (.memoized m)).slot_map key = some i := by
    rw [postStore_lookup σ i (.memoized m) hs key]
    exact hlk
  have hs2 := postStore_getElem_self σ i (.memoized m) hs hnd
  exact fetch_cached_spec hc hlk2 hs2 hstk rfl hv hval


/-! ## The claim theorems -/

/-! ### Claim C4: cancellation is checked first -/

/-- C4: every fetch checks the cancellation flag before any other work; when
cancellation is signaled the fetch aborts with a `Cancelled` signal, the
storage is returned unchanged (no slot is created or transitioned and no
memoized stamp changes) and the user query function does not run. -/
theorem fetch_cancelled_aborts_unchanged {K V : Type} [DecidableEq K]
    (cfg : QueryConfig K V) (ctx : Ctx) (σ : DerivedGlobalStorage K V) (key : K)
    (h : ctx.cancelled = true) :
    fetch cfg ctx σ key = (.error .Cancelled, σ, 0) :=
  fetch_cancelled_eq h

/-- Witness for C4 at a concrete cancelled runtime. -/
theorem fetch_cancelled_aborts_unchanged_witness :
    ctxCancelled.cancelled = true ∧
      fetch dblCfg ctxCancelled sigEmpty 21 = (.error .Cancelled, sigEmpty, 0) :=
  ⟨rfl, fetch_cancelled_aborts_unchanged dblCfg ctxCancelled sigEmpty 21 rfl⟩

/-! ### Claim C7: purge drops everything -/

/-- C7: `purge` drops the entire key→slot map and all LRU state; afterwards
the storage holds no slots and `entries` returns an empty snapshot. -/
theorem purge_drops_all {K V : Type} (σ : DerivedGlobalStorage K V) :
    (σ.purge).slot_map = [] ∧ (σ.purge).entries = [] ∧
      (σ.purge).lru_list.entries = [] :=
  ⟨rfl, rfl, rfl⟩

/-! ### Claim C5: invalidate and the new-revision scope -/

/-- C5: `invalidate` returns some durability exactly when the key's slot
currently holds a memoized value — namely that memo's prior durability (the
spec-side `specInvalidateResult`); it marks the memo stale as of the new
revision, and the whole invalidation runs inside the revision authority's
new-revision scope (the returned runtime is at revision `ctx.revision + 1`). -/
theorem invalidate_matches_spec {K V : Type} [DecidableEq K] (ctx : Ctx)
    (σ : DerivedGlobalStorage K V) (key : K) :
    (DerivedGlobalStorage.invalidate ctx σ key).1 = specInvalidateResult σ key
  ∧ (DerivedGlobalStorage.invalidate ctx σ key).2.2.revision = ctx.revision + 1
  ∧ getMemo (DerivedGlobalStorage.invalidate ctx σ key).2.1 key
      = (getMemo σ key).map (fun m => { m with stale_at := some (ctx.revision + 1) }) := by
  cases hlk : lookupIdx σ.slot_map key with
  | none =>
    have h12 : (DerivedGlobalStorage.invalidate ctx σ key).1 = none ∧
        (DerivedGlobalStorage.invalidate ctx σ key).2.1 = σ := by
      unfold DerivedGlobalStorage.invalidate
      rw [hlk]
      exact ⟨rfl, rfl⟩
    refine ⟨?_, rfl, ?_⟩
    · rw [h12.1]
      unfold specInvalidateResult
      rw [getMemo_none hlk]
      rfl
    · rw [h12.2, getMemo_none hlk]
      rfl
  | some i =>
    cases hg : σ.slot_map[i]? with
    | none =>
      rcases lookupIdx_get hlk with ⟨s, hs⟩
      rw [hs] at hg
      exact absurd hg (by simp)
    | some p =>
      have h12 : (DerivedGlobalStorage.invalidate ctx σ key).1 =
            (p.2.invalidate (ctx.revision + 1)).1 ∧
          (DerivedGlobalStorage.invalidate ctx σ key).2.1 =
            { σ with slot_map :=
                σ.slot_map.set i (p.1, (p.2.invalidate (ctx.revision + 1)).2) } := by
        unfold DerivedGlobalStorage.invalidate
        rw [hlk]
        dsimp only
        rw [hg]
        exact ⟨rfl, rfl⟩
      refine ⟨?_, rfl, ?_⟩
      · rw [h12.1]
        unfold specInvalidateResult
        rw [getMemo_eq hlk hg]
        cases hst : p.2.state <;> simp [Slot.invalidate, hst]
      · rw [h12.2, getMemo_set hlk hg, getMemo_eq hlk hg]
        cases hst : p.2.state <;> simp [Slot.invalidate, hst]

/-! ### Claim C8: cycle detection on the fatal path -/

/-- C8: when the address of the requested slot is already on the active
query stack (the call path is mid-computation of the very thing requested,
the slot being `InProgress`) and the query type declares no recovery
strategy, the fetch terminates with a `CycleDetected` signal: it neither
completes with a value nor mutates the storage, and the query function does
not run. -/
theorem fetch_cycle_detected {K V : Type} [DecidableEq K] (cfg : QueryConfig K V)
    (ctx : Ctx) (σ : DerivedGlobalStorage K V) (key : K) (i : Nat) (k : K) (s : Slot K V)
    (hc : ctx.cancelled = false)
    (hlk : lookupIdx σ.slot_map key = some i)
    (hs : σ.slot_map[i]? = some (k, s))
    (_hip : s.state = .inProgress)
    (hstk : s.database_key_index ∈ ctx.stack)
    (hstrat : cfg.cycle_strategy = .Fatal) :
    fetch cfg ctx σ key = (.error .CycleDetected, σ, 0) := by
  have hr : slotRead cfg ctx s = (.error .CycleDetected, s.state, 0) := by
    unfold slotRead
    rw [hc]
    simp [hstk, hstrat]
  have h2 := fetch_found_error hc hlk hs (by rw [hr])
  rw [h2, hr]

/-- Witness for C8: a slot mid-computation whose own address is on the
active stack, under the fatal strategy. -/
theorem fetch_cycle_detected_witness :
    ctxOnStack.cancelled = false ∧
      fetch dblCfg ctxOnStack sigInProgress 5 =
        (.error .CycleDetected, sigInProgress, 0) :=
  ⟨rfl,
    fetch_cycle_detected dblCfg ctxOnStack sigInProgress 5 0 5
      ⟨5, ⟨3, 7, 0⟩, .inProgress⟩ rfl (by decide) (by decide) rfl (by decide) rfl⟩

/-! ### Claim C2: backdating -/

/-- C2: if a slot's memo was computed at an earlier revision (`m.changed_at`
below the current revision) and a forced recomputation at the current
revision yields a value the policy's `memoized_value_eq` deems equivalent,
the new memo's `changed_at` equals the old `changed_at` — it is not
advanced to the current revision. -/
theorem slotRead_backdates {K V : Type} (cfg : QueryConfig K V) (ctx : Ctx)
    (s : Slot K V) (m : Memo V) (ov : V)
    (hc : ctx.cancelled = false)
    (hstk : s.database_key_index ∉ ctx.stack)
    (hst : s.state = .memoized m)
    (hov : m.value = some ov)
    (hinv : memoValid ctx m = false)
    (hlt : m.changed_at < ctx.revision)
    (heq : cfg.policy.memoized_value_eq ov (cfg.execute s.key).1 = .ok true) :
    slotRead cfg ctx s =
      (.ok ⟨(cfg.execute s.key).1, (cfg.execute s.key).2, m.changed_at⟩,
        .memoized
          { value := if cfg.policy.should_memoize_value s.key then
                some (cfg.execute s.key).1 else none
            durability := (cfg.execute s.key).2
            changed_at := m.changed_at
            verified_at := ctx.revision
            stale_at := none }, 1)
    ∧ m.changed_at ≠ ctx.revision := by
  refine ⟨?_, Nat.ne_of_lt hlt⟩
  have hr := @slotRead_recompute K V cfg ctx s m ov true hc hstk hst hinv hov heq
  rw [hr]
  simp

/-- Witness for C2: the memo for `double(21)` computed and last changed at
revision 0 is recomputed at revision 1 (a durability-0 change forces it);
the recomputed value 42 is equal, so `changed_at` stays 0. -/
theorem slotRead_backdates_witness :
    memoValid ctxRev1 (⟨some 42, 0, 0, 0, none⟩ : Memo Nat) = false ∧
      slotRead dblCfg ctxRev1 ⟨21, ⟨3, 7, 0⟩, .memoized ⟨some 42, 0, 0, 0, none⟩⟩ =
        (.ok ⟨42, 0, 0⟩, .memoized ⟨some 42, 0, 0, 1, none⟩, 1) := by
  refine ⟨by decide, ?_⟩
  have h := slotRead_backdates dblCfg ctxRev1
    ⟨21, ⟨3, 7, 0⟩, .memoized ⟨some 42, 0, 0, 0, none⟩⟩
    ⟨some 42, 0, 0, 0, none⟩ 42 rfl (by decide) rfl rfl (by decide) (by decide) rfl
  rw [h.1]
  rfl

/-! ### Claim C10: the never-memoize policy cannot panic -/

/-- C10: under the `NeverMemoizeValue` policy `should_memoize_value` is
false for every key, no reachable slot ever stores a value, and therefore
`memoized_value_eq` — whose body is an unconditional panic — is never
invoked: no fetch over a dependency-only storage can raise a policy panic,
and the no-stored-value invariant is preserved. -/
theorem never_memoize_policy_safe {K V : Type} [DecidableEq K] (cfg : QueryConfig K V)
    (ctx : Ctx) (σ : DerivedGlobalStorage K V) (key : K)
    (hpol : cfg.policy = NeverMemoizeValue K V)
    (hnsv : NoStoredValues σ = true) :
    cfg.policy.should_memoize_value key = false
  ∧ isPanicked (fetch cfg ctx σ key).1 = false
  ∧ NoStoredValues (fetch cfg ctx σ key).2.1 = true := by
  refine ⟨by rw [hpol]; rfl, ?_⟩
  by_cases hc : ctx.cancelled = true
  · rw [fetch_cancelled_eq hc]
    exact ⟨rfl, hnsv⟩
  · have hc2 : ctx.cancelled = false := by simpa using hc
    rw [fetch_slotted hc2]
    have h1 : NoStoredValues (σ.slot cfg key).1 = true :=
      NoStoredValues_slotted cfg σ key hnsv
    have hlk1 := slot_lookup_self cfg σ key
    rcases lookupIdx_get hlk1 with ⟨s, hs1⟩
    have hsnv : stateNoValue s.state = true := by
      have hmem := List.getElem?_mem hs1
      unfold NoStoredValues at h1
      rw [List.all_eq_true] at h1
      exact h1 _ hmem
    have hsr := slotRead_novalue_safe cfg ctx s hpol hsnv
    cases hr : (slotRead cfg ctx s).1 with
    | error sig =>
      rw [fetch_found_error hc2 hlk1 hs1 hr]
      refine ⟨?_, h1⟩
      have h3 := hsr.1
      rw [hr] at h3
      exact h3
    | ok sv =>
      rw [fetch_found_ok hc2 hlk1 hs1 hr]
      exact ⟨rfl, NoStoredValues_postStore _ _ _ _ _ h1 hsr.2⟩

/-- Witness for C10 on the concrete dependency-only `double` storage. -/
theorem never_memoize_policy_safe_witness :
    depCfg.policy = NeverMemoizeValue Nat Nat ∧ NoStoredValues sigEmpty = true ∧
      (depCfg.policy.should_memoize_value 21 = false
        ∧ isPanicked (fetch depCfg ctx0 sigEmpty 21).1 = false
        ∧ NoStoredValues (fetch depCfg ctx0 sigEmpty 21).2.1 = true) :=
  ⟨rfl, rfl, never_memoize_policy_safe depCfg ctx0 sigEmpty 21 rfl rfl⟩


/-! ### Claim C1: idempotence at a fixed revision -/

/-- C1 (amended): at a fixed revision, for a storage whose policy memoizes
values (`should_memoize_value` true everywhere, with a total equivalence
check, as `AlwaysMemoizeValue`), two consecutive fetches of the same key
return bit-identical stamped results and the query function executes at
most once across the two calls, provided the LRU recency list is duplicate
free (so the freshly used slot is not evicted in between) and any existing
memo for the key stores its value. -/
theorem fetch_idempotent_memoizing {K V : Type} [DecidableEq K]
    (cfg : QueryConfig K V) (ctx : Ctx) (σ : DerivedGlobalStorage K V) (key : K)
    (hc : ctx.cancelled = false)
    (hm : ∀ k, cfg.policy.should_memoize_value k = true)
    (heq : ∀ a b, ∃ bb, cfg.policy.memoized_value_eq a b = Except.ok bb)
    (hval : ((getMemo σ key).all fun mm => mm.value.isSome) = true)
    (hnd : σ.lru_list.entries.Nodup) :
    (fetch cfg ctx (fetch cfg ctx σ key).2.1 key).1 = (fetch cfg ctx σ key).1
  ∧ (fetch cfg ctx σ key).2.2 +
      (fetch cfg ctx (fetch cfg ctx σ key).2.1 key).2.2 ≤ 1 := by
  rw [@fetch_slotted K V _ cfg ctx σ key hc]
  have hval1 := getMemo_slotted_all cfg σ key (fun mm => mm.value.isSome) hval
  have hnd1 : (σ.slot cfg key).1.lru_list.entries.Nodup := by
    rw [slot_lru]
    exact hnd
  have hlk1 := slot_lookup_self cfg σ key
  obtain ⟨s, hs1⟩ := lookupIdx_get hlk1
  by_cases hstk : s.database_key_index ∈ ctx.stack
  · cases hcs : cfg.cycle_strategy with
    | Fatal =>
      have hr := slotRead_stack_fatal hc hstk hcs
      have hfe := fetch_found_error hc hlk1 hs1 (by rw [hr])
      simp only [hr] at hfe
      simp [hfe]
    | Fallback =>
      have hr := slotRead_stack_fallback hc hstk hcs
      have hfe := fetch_found_ok hc hlk1 hs1 (by rw [hr])
      simp only [hr] at hfe
      have hlk2 : lookupIdx (postStore (σ.slot cfg key).1 (σ.slot cfg key).2 key s
          s.state).slot_map key = some (σ.slot cfg key).2 := by
        rw [postStore_lookup _ _ _ hs1]
        exact hlk1
      have hs2 := postStore_getElem_self (σ.slot cfg key).1 (σ.slot cfg key).2
        s.state hs1 hnd1
      have hr2 := slotRead_stack_fallback hc
        (show ({ s with state := s.state } : Slot K V).database_key_index ∈ ctx.stack
          from hstk) hcs
      have hfe2 := fetch_found_ok hc hlk2 hs2 (by rw [hr2])
      simp only [hr2] at hfe2
      simp [hfe, hfe2]
  · cases hst : s.state with
    | memoized m =>
      have hvs : m.value.isSome = true := by
        have hg := getMemo_eq hlk1 hs1
        rw [hst] at hg
        rw [hg] at hval1
        simpa using hval1
      obtain ⟨v, hv⟩ := Option.isSome_iff_exists.mp hvs
      by_cases hvld : memoValid ctx m = true
      · have hr := @slotRead_cached K V cfg ctx s m v hc hstk hst hvld hv
        have hfe := fetch_found_ok hc hlk1 hs1 (by rw [hr])
        simp only [hr] at hfe
        have hpost := fetch_post_cached cfg hc hlk1 hs1 hnd1 hstk
          (memoValid_verify ctx (memoValid_stale_none hvld))
          (show ({ m with verified_at := ctx.revision } : Memo V).value = some v from hv)
        simp only [hfe]
        exact ⟨by rw [hpost.1], by simp [hpost.2]⟩
      · have hvld2 : memoValid ctx m = false := by simpa using hvld
        obtain ⟨bb, hbb⟩ := heq v (cfg.execute s.key).1
        have hr := @slotRead_recompute K V cfg ctx s m v bb hc hstk hst hvld2 hv hbb
        have hfe := fetch_found_ok hc hlk1 hs1 (by rw [hr])
        simp only [hr, hm, if_true] at hfe
        have hmv : memoValid ctx
            (⟨some (cfg.execute s.key).1, (cfg.execute s.key).2,
              if bb = true then m.changed_at else ctx.revision,
              ctx.revision, none⟩ : Memo V) = true := by
          simp [memoValid]
        have hvv : (⟨some (cfg.execute s.key).1, (cfg.execute s.key).2,
              if bb = true then m.changed_at else ctx.revision,
              ctx.revision, none⟩ : Memo V).value = some (cfg.execute s.key).1 := rfl
        have hpost := fetch_post_cached cfg hc hlk1 hs1 hnd1 hstk hmv hvv
        simp only [hfe]
        exact ⟨by rw [hpost.1], by simp [hpost.2]⟩
    | unresolved =>
      have hr := @slotRead_unresolved K V cfg ctx s hc hstk hst
      have hfe := fetch_found_ok hc hlk1 hs1 (by rw [hr])
      simp only [hr, hm, if_true] at hfe
      have hmv : memoValid ctx
          (⟨some (cfg.execute s.key).1, (cfg.execute s.key).2, ctx.revision,
            ctx.revision, none⟩ : Memo V) = true := by
        simp [memoValid]
      have hvv : (⟨some (cfg.execute s.key).1, (cfg.execute s.key).2, ctx.revision,
            ctx.revision, none⟩ : Memo V).value = some (cfg.execute s.key).1 := rfl
      have hpost := fetch_post_cached cfg hc hlk1 hs1 hnd1 hstk hmv hvv
      simp only [hfe]
      exact ⟨by rw [hpost.1], by simp [hpost.2]⟩
    | inProgress =>
      have hr := @slotRead_in_progress K V cfg ctx s hc hstk hst
      have hfe := fetch_found_ok hc hlk1 hs1 (by rw [hr])
      simp only [hr, hm, if_true] at hfe
      have hmv : memoValid ctx
          (⟨some (cfg.execute s.key).1, (cfg.execute s.key).2, ctx.revision,
            ctx.revision, none⟩ : Memo V) = true := by
        simp [memoValid]
      have hvv : (⟨some (cfg.execute s.key).1, (cfg.execute s.key).2, ctx.revision,
            ctx.revision, none⟩ : Memo V).value = some (cfg.execute s.key).1 := rfl
      have hpost := fetch_post_cached cfg hc hlk1 hs1 hnd1 hstk hmv hvv
      simp only [hfe]
      exact ⟨by rw [hpost.1], by simp [hpost.2]⟩

/-- Witness for C1 on the concrete memoizing `double` storage at revision 0. -/
theorem fetch_idempotent_memoizing_witness :
    ctx0.cancelled = false ∧ sigEmpty.lru_list.entries.Nodup ∧
      ((fetch dblCfg ctx0 (fetch dblCfg ctx0 sigEmpty 21).2.1 21).1 =
          (fetch dblCfg ctx0 sigEmpty 21).1
        ∧ (fetch dblCfg ctx0 sigEmpty 21).2.2 +
            (fetch dblCfg ctx0 (fetch dblCfg ctx0 sigEmpty 21).2.1 21).2.2 ≤ 1) :=
  ⟨rfl, List.nodup_nil,
    fetch_idempotent_memoizing dblCfg ctx0 sigEmpty 21 rfl (fun _ => rfl)
      (fun a b => ⟨decide (a = b), rfl⟩) rfl List.nodup_nil⟩

/-- Counterexample to C1 as stated: on a dependency-only (never-memoize)
storage, two fetches of the same key at the same revision 0 with the LRU
bound disabled (so nothing is evicted) return bit-identical stamps, yet the
query function runs twice — not at most once. -/
theorem fetch_idempotent_counterexample :
    sigEmpty.lru_list.capacity = 0 ∧
    (fetch depCfg ctx0 (fetch depCfg ctx0 sigEmpty 21).2.1 21).1 =
        (fetch depCfg ctx0 sigEmpty 21).1 ∧
    (fetch depCfg ctx0 sigEmpty 21).2.2 +
        (fetch depCfg ctx0 (fetch depCfg ctx0 sigEmpty 21).2.1 21).2.2 = 2 :=
  ⟨rfl, rfl, rfl⟩

/-! ### Claim C9: race safety for an uncomputed key -/

/-- C9 (amended): the slot-level synchronization of the model serializes
two overlapping reads; for a value-memoizing storage, when two serialized
fetches target a not-yet-created key, the query function executes exactly
once in total, the first fetch memoizes `(value, durability, revision)`,
and the second fetch observes the identical stamped value. -/
theorem race_single_execution {K V : Type} [DecidableEq K]
    (cfg : QueryConfig K V) (ctx : Ctx) (σ : DerivedGlobalStorage K V) (key : K)
    (hc : ctx.cancelled = false)
    (hm : ∀ k, cfg.policy.should_memoize_value k = true)
    (hnd : σ.lru_list.entries.Nodup)
    (hfresh : lookupIdx σ.slot_map key = none)
    (hstk : (⟨σ.group_index, cfg.query_index, σ.slot_map.length⟩ : DatabaseKeyIndex)
      ∉ ctx.stack) :
    (fetch cfg ctx σ key).1 =
        .ok ⟨(cfg.execute key).1, (cfg.execute key).2, ctx.revision⟩
  ∧ (fetch cfg ctx (fetch cfg ctx σ key).2.1 key).1 = (fetch cfg ctx σ key).1
  ∧ (fetch cfg ctx σ key).2.2 +
      (fetch cfg ctx (fetch cfg ctx σ key).2.1 key).2.2 = 1 := by
  rw [@fetch_slotted K V _ cfg ctx σ key hc]
  rw [slot_fresh hfresh]
  dsimp only
  have hlk1 : lookupIdx ({ σ with slot_map := σ.slot_map ++
      [(key, (⟨key, ⟨σ.group_index, cfg.query_index, σ.slot_map.length⟩,
        .unresolved⟩ : Slot K V))] } : DerivedGlobalStorage K V).slot_map key =
      some σ.slot_map.length :=
    lookupIdx_append_fresh _ hfresh
  have hs1 : ({ σ with slot_map := σ.slot_map ++
      [(key, (⟨key, ⟨σ.group_index, cfg.query_index, σ.slot_map.length⟩,
        .unresolved⟩ : Slot K V))] } : DerivedGlobalStorage K V).slot_map[
        σ.slot_map.length]? =
      some (key, ⟨key, ⟨σ.group_index, cfg.query_index, σ.slot_map.length⟩,
        .unresolved⟩) :=
    List.getElem?_concat_length _ _
  have hr := @slotRead_unresolved K V cfg ctx
    ⟨key, ⟨σ.group_index, cfg.query_index, σ.slot_map.length⟩, .unresolved⟩
    hc hstk rfl
  have hfe := fetch_found_ok hc hlk1 hs1 (by rw [hr])
  simp only [hr, hm, if_true] at hfe
  have hnd1 : ({ σ with slot_map := σ.slot_map ++
      [(key, (⟨key, ⟨σ.group_index, cfg.query_index, σ.slot_map.length⟩,
        .unresolved⟩ : Slot K V))] } : DerivedGlobalStorage K V).lru_list.entries.Nodup :=
    hnd
  have hmv : memoValid ctx
      (⟨some (cfg.execute key).1, (cfg.execute key).2, ctx.revision,
        ctx.revision, none⟩ : Memo V) = true := by
    simp [memoValid]
  have hvv : (⟨some (cfg.execute key).1, (cfg.execute key).2, ctx.revision,
        ctx.revision, none⟩ : Memo V).value = some (cfg.execute key).1 := rfl
  have hpost := fetch_post_cached cfg hc hlk1 hs1 hnd1 hstk hmv hvv
  refine ⟨?_, ?_, ?_⟩
  · rw [hfe]
  · rw [hfe]
    dsimp only
    rw [hpost.1]
  · rw [hfe]
    dsimp only
    rw [hpost.2]

/-- Witness for C9: two serialized fetches of the uncomputed key 21 on the
memoizing `double` storage — one execution, identical stamps. -/
theorem race_single_execution_witness :
    ctx0.cancelled = false ∧ lookupIdx sigEmpty.slot_map 21 = none ∧
      ((fetch dblCfg ctx0 sigEmpty 21).1 = .ok ⟨42, 0, 0⟩
        ∧ (fetch dblCfg ctx0 (fetch dblCfg ctx0 sigEmpty 21).2.1 21).1 =
            (fetch dblCfg ctx0 sigEmpty 21).1
        ∧ (fetch dblCfg ctx0 sigEmpty 21).2.2 +
            (fetch dblCfg ctx0 (fetch dblCfg ctx0 sigEmpty 21).2.1 21).2.2 = 1) :=
  ⟨rfl, rfl,
    race_single_execution dblCfg ctx0 sigEmpty 21 rfl (fun _ => rfl)
      List.nodup_nil rfl (by decide)⟩

/-- Counterexample to C9 as stated: on a dependency-only (never-memoize)
storage, two serialized fetches of the uncomputed key 11 both observe the
same stamp but the query function executes twice, not exactly once. -/
theorem race_single_execution_counterexample :
    lookupIdx sigEmpty.slot_map 11 = none ∧
    (fetch depCfg ctx0 (fetch depCfg ctx0 sigEmpty 11).2.1 11).1 =
        (fetch depCfg ctx0 sigEmpty 11).1 ∧
    (fetch depCfg ctx0 sigEmpty 11).2.2 +
        (fetch depCfg ctx0 (fetch depCfg ctx0 sigEmpty 11).2.1 11).2.2 = 2 :=
  ⟨rfl, rfl, rfl⟩

/-! ### Lemmas about the addressing invariant -/

theorem addressOk_spec {K V : Type} [DecidableEq K] {cfg : QueryConfig K V}
    {σ : DerivedGlobalStorage K V} (h : addressOk cfg σ = true) :
    ∀ (i : Nat) (p : K × Slot K V), σ.slot_map[i]? = some p →
      p.2.database_key_index =
          ⟨σ.group_index, cfg.query_index, i⟩ ∧ p.2.key = p.1 := by
  intro i p hg
  unfold addressOk at h
  rw [List.all_eq_true] at h
  have hi : i ∈ List.range σ.slot_map.length := by
    rw [List.mem_range]
    exact (List.getElem?_eq_some_iff.mp hg).1
  have h2 := h i hi
  rw [hg] at h2
  simpa using h2

theorem addressOk_intro {K V : Type} [DecidableEq K] {cfg : QueryConfig K V}
    {σ : DerivedGlobalStorage K V}
    (h : ∀ (i : Nat) (p : K × Slot K V), σ.slot_map[i]? = some p →
      p.2.database_key_index =
          ⟨σ.group_index, cfg.query_index, i⟩ ∧ p.2.key = p.1) :
    addressOk cfg σ = true := by
  unfold addressOk
  rw [List.all_eq_true]
  intro i hi
  rw [List.mem_range] at hi
  rw [List.getElem?_eq_getElem hi]
  simp [h i _ (List.getElem?_eq_getElem hi)]

theorem evict_preserves_identity {K V : Type} (s : Slot K V) :
    (Slot.evict s).key = s.key ∧
      (Slot.evict s).database_key_index = s.database_key_index := by
  obtain ⟨sk, sdki, sst⟩ := s
  unfold Slot.evict
  cases sst <;> exact ⟨rfl, rfl⟩

theorem addressOk_set_state {K V : Type} [DecidableEq K] {cfg : QueryConfig K V}
    {σ : DerivedGlobalStorage K V} {i : Nat} {k : K} {s : Slot K V}
    (hs : σ.slot_map[i]? = some (k, s)) (st : SlotState V)
    (h : addressOk cfg σ = true) :
    addressOk cfg
      { σ with slot_map := σ.slot_map.set i (k, { s with state := st }) } = true := by
  apply addressOk_intro
  intro j p hg
  by_cases hij : i = j
  · subst hij
    have hlt : i < σ.slot_map.length := (List.getElem?_eq_some_iff.mp hs).1
    rw [show ({ σ with slot_map := σ.slot_map.set i (k, { s with state := st }) } :
        DerivedGlobalStorage K V).slot_map = σ.slot_map.set i (k, { s with state := st })
        from rfl] at hg
    rw [List.getElem?_set_self (by simpa using hlt)] at hg
    obtain rfl := Option.some_inj.mp hg
    have h2 := addressOk_spec h i (k, s) hs
    exact ⟨h2.1, h2.2⟩
  · rw [show ({ σ with slot_map := σ.slot_map.set i (k, { s with state := st }) } :
        DerivedGlobalStorage K V).slot_map = σ.slot_map.set i (k, { s with state := st })
        from rfl] at hg
    rw [List.getElem?_set_ne hij] at hg
    exact addressOk_spec h j p hg

theorem addressOk_evictAt {K V : Type} [DecidableEq K] {cfg : QueryConfig K V}
    {σ : DerivedGlobalStorage K V} (e : Nat) (h : addressOk cfg σ = true) :
    addressOk cfg (σ.evictAt e) = true := by
  unfold DerivedGlobalStorage.evictAt
  cases hg : σ.slot_map[e]? with
  | none => exact h
  | some p =>
    dsimp only
    apply addressOk_intro
    intro j q hq
    by_cases hej : e = j
    · subst hej
      have hlt : e < σ.slot_map.length := (List.getElem?_eq_some_iff.mp hg).1
      rw [show ({ σ with slot_map := σ.slot_map.set e (p.1, p.2.evict) } :
          DerivedGlobalStorage K V).slot_map = σ.slot_map.set e (p.1, p.2.evict)
          from rfl] at hq
      rw [List.getElem?_set_self (by simpa using hlt)] at hq
      obtain rfl := Option.some_inj.mp hq
      have h2 := addressOk_spec h e p hg
      have h3 := evict_preserves_identity p.2
      exact ⟨h3.2.trans h2.1, h3.1.trans h2.2⟩
    · rw [show ({ σ with slot_map := σ.slot_map.set e (p.1, p.2.evict) } :
          DerivedGlobalStorage K V).slot_map = σ.slot_map.set e (p.1, p.2.evict)
          from rfl] at hq
      rw [List.getElem?_set_ne hej] at hq
      exact addressOk_spec h j q hq

theorem addressOk_evictFold {K V : Type} [DecidableEq K] {cfg : QueryConfig K V}
    (E : List Nat) (σ : DerivedGlobalStorage K V) (h : addressOk cfg σ = true) :
    addressOk cfg (E.foldl DerivedGlobalStorage.evictAt σ) = true := by
  induction E generalizing σ with
  | nil => exact h
  | cons e rest ih =>
    simp only [List.foldl_cons]
    exact ih _ (addressOk_evictAt e h)

theorem addressOk_postStore {K V : Type} [DecidableEq K] {cfg : QueryConfig K V}
    {σ : DerivedGlobalStorage K V} {i : Nat} {k : K} {s : Slot K V}
    (hs : σ.slot_map[i]? = some (k, s)) (st : SlotState V)
    (h : addressOk cfg σ = true) : addressOk cfg (postStore σ i k s st) = true := by
  unfold postStore
  apply addressOk_evictFold
  exact addressOk_set_state hs st h

theorem addressOk_writePhase {K V : Type} [DecidableEq K] {cfg : QueryConfig K V}
    {σ : DerivedGlobalStorage K V} (key : K) (h : addressOk cfg σ = true) :
    addressOk cfg (slotWritePhase cfg σ key).1 = true := by
  unfold slotWritePhase
  cases hlk : lookupIdx σ.slot_map key with
  | some i => exact h
  | none =>
    dsimp only
    apply addressOk_intro
    intro j p hg
    by_cases hj : j < σ.slot_map.length
    · rw [show ({ σ with slot_map := σ.slot_map ++
          [(key, (⟨key, ⟨σ.group_index, cfg.query_index, σ.slot_map.length⟩,
            .unresolved⟩ : Slot K V))] } : DerivedGlobalStorage K V).slot_map =
          σ.slot_map ++ [(key, ⟨key, ⟨σ.group_index, cfg.query_index,
            σ.slot_map.length⟩, .unresolved⟩)] from rfl] at hg
      rw [List.getElem?_append_left hj] at hg
      exact addressOk_spec h j p hg
    · rw [show ({ σ with slot_map := σ.slot_map ++
          [(key, (⟨key, ⟨σ.group_index, cfg.query_index, σ.slot_map.length⟩,
            .unresolved⟩ : Slot K V))] } : DerivedGlobalStorage K V).slot_map =
          σ.slot_map ++ [(key, ⟨key, ⟨σ.group_index, cfg.query_index,
            σ.slot_map.length⟩, .unresolved⟩)] from rfl] at hg
      have hj2 : j = σ.slot_map.length := by
        have hlen := (List.getElem?_eq_some_iff.mp hg).1
        simp only [List.length_append, List.length_cons, List.length_nil] at hlen
        omega
      subst hj2
      rw [List.getElem?_concat_length] at hg
      obtain rfl := Option.some_inj.mp hg
      exact ⟨rfl, rfl⟩

theorem addressOk_slot {K V : Type} [DecidableEq K] {cfg : QueryConfig K V}
    {σ : DerivedGlobalStorage K V} (key : K) (h : addressOk cfg σ = true) :
    addressOk cfg (σ.slot cfg key).1 = true := by
  unfold DerivedGlobalStorage.slot
  cases hlk : lookupIdx σ.slot_map key with
  | some i => exact h
  | none => exact addressOk_writePhase key h

theorem addressOk_fetch {K V : Type} [DecidableEq K] {cfg : QueryConfig K V}
    (ctx : Ctx) {σ : DerivedGlobalStorage K V} (key : K)
    (h : addressOk cfg σ = true) : addressOk cfg (fetch cfg ctx σ key).2.1 = true := by
  by_cases hc : ctx.cancelled = true
  · rw [fetch_cancelled_eq hc]
    exact h
  · have hc2 : ctx.cancelled = false := by simpa using hc
    rw [@fetch_slotted K V _ cfg ctx σ key hc2]
    have h1 := addressOk_slot key h
    have hlk1 := slot_lookup_self cfg σ key
    obtain ⟨s, hs1⟩ := lookupIdx_get hlk1
    cases hr : (slotRead cfg ctx s).1 with
    | error sig =>
      rw [fetch_found_error hc2 hlk1 hs1 hr]
      exact h1
    | ok sv =>
      rw [fetch_found_ok hc2 hlk1 hs1 hr]
      exact addressOk_postStore hs1 _ h1

theorem addressOk_runFetches {K V : Type} [DecidableEq K] {cfg : QueryConfig K V}
    (ops : List (Ctx × K)) (σ : DerivedGlobalStorage K V)
    (h : addressOk cfg σ = true) : addressOk cfg (runFetches cfg ops σ) = true := by
  induction ops generalizing σ with
  | nil => exact h
  | cons op rest ih =>
    unfold runFetches
    simp only [List.foldl_cons]
    exact ih _ (addressOk_fetch op.1 op.2 h)

theorem lookupIdx_slot_preserved {K V : Type} [DecidableEq K] {cfg : QueryConfig K V}
    {σ : DerivedGlobalStorage K V} (key2 : K) {key : K} {i : Nat}
    (h : lookupIdx σ.slot_map key = some i) :
    lookupIdx (σ.slot cfg key2).1.slot_map key = some i := by
  unfold DerivedGlobalStorage.slot slotWritePhase
  cases hlk : lookupIdx σ.slot_map key2 with
  | some j => exact h
  | none => exact lookupIdx_append_left h

theorem lookupIdx_fetch_preserved {K V : Type} [DecidableEq K] {cfg : QueryConfig K V}
    (ctx : Ctx) (key2 : K) {σ : DerivedGlobalStorage K V} {key : K} {i : Nat}
    (h : lookupIdx σ.slot_map key = some i) :
    lookupIdx (fetch cfg ctx σ key2).2.1.slot_map key = some i := by
  by_cases hc : ctx.cancelled = true
  · rw [fetch_cancelled_eq hc]
    exact h
  · have hc2 : ctx.cancelled = false := by simpa using hc
    rw [@fetch_slotted K V _ cfg ctx σ key2 hc2]
    have h1 := @lookupIdx_slot_preserved K V _ cfg _ key2 _ _ h
    have hlk1 := slot_lookup_self cfg σ key2
    obtain ⟨s, hs1⟩ := lookupIdx_get hlk1
    cases hr : (slotRead cfg ctx s).1 with
    | error sig =>
      rw [fetch_found_error hc2 hlk1 hs1 hr]
      exact h1
    | ok sv =>
      rw [fetch_found_ok hc2 hlk1 hs1 hr]
      rw [postStore_lookup _ _ _ hs1]
      exact h1

theorem lookupIdx_runFetches_preserved {K V : Type} [DecidableEq K]
    {cfg : QueryConfig K V} (ops : List (Ctx × K)) {σ : DerivedGlobalStorage K V}
    {key : K} {i : Nat} (h : lookupIdx σ.slot_map key = some i) :
    lookupIdx (runFetches cfg ops σ).slot_map key = some i := by
  induction ops generalizing σ with
  | nil => exact h
  | cons op rest ih =>
    unfold runFetches
    simp only [List.foldl_cons]
    exact ih (lookupIdx_fetch_preserved op.1 op.2 h)

/-! ### Claim C3: single slot creation and address stability -/

/-- C3: the optimistic-read lookup agrees with the exclusive write phase;
running the write phase again (the second thread of a racing pair, after
the winner inserted) returns the very same storage and index, so at most
one slot is ever created per (storage, key); the returned `key_index` is
the key's insertion position (the map length on a true miss), the slot's
stored `DatabaseKeyIndex` is `(group_index, query_index, key_index)`, and
the index stays identical across any further sequence of fetches (no purge
occurring), with the addressing invariant preserved. -/
theorem slot_single_creation_address_stable {K V : Type} [DecidableEq K]
    (cfg : QueryConfig K V) (σ : DerivedGlobalStorage K V) (key : K)
    (ops : List (Ctx × K)) (haddr : addressOk cfg σ = true) :
    DerivedGlobalStorage.slot cfg σ key = slotWritePhase cfg σ key
  ∧ slotWritePhase cfg (slotWritePhase cfg σ key).1 key = slotWritePhase cfg σ key
  ∧ lookupIdx (slotWritePhase cfg σ key).1.slot_map key =
      some (slotWritePhase cfg σ key).2
  ∧ (lookupIdx σ.slot_map key = none →
      (slotWritePhase cfg σ key).2 = σ.slot_map.length ∧
        (slotWritePhase cfg σ key).1.slot_map.length = σ.slot_map.length + 1)
  ∧ ((slotWritePhase cfg σ key).1.slot_map[(slotWritePhase cfg σ key).2]?).map
      (fun p => p.2.database_key_index) =
      some ⟨σ.group_index, cfg.query_index, (slotWritePhase cfg σ key).2⟩
  ∧ lookupIdx (runFetches cfg ops (slotWritePhase cfg σ key).1).slot_map key =
      some (slotWritePhase cfg σ key).2
  ∧ addressOk cfg (runFetches cfg ops (slotWritePhase cfg σ key).1) = true := by
  have hwl : lookupIdx (slotWritePhase cfg σ key).1.slot_map key =
      some (slotWritePhase cfg σ key).2 := by
    unfold slotWritePhase
    cases hlk : lookupIdx σ.slot_map key with
    | some i => exact hlk
    | none =>
      dsimp only
      exact lookupIdx_append_fresh _ hlk
  have hfound : ∀ (σ2 : DerivedGlobalStorage K V) (i : Nat),
      lookupIdx σ2.slot_map key = some i → slotWritePhase cfg σ2 key = (σ2, i) := by
    intro σ2 i h2
    unfold slotWritePhase
    rw [h2]
  refine ⟨?_, ?_, hwl, ?_, ?_, ?_, ?_⟩
  · unfold DerivedGlobalStorage.slot slotWritePhase
    cases hlk : lookupIdx σ.slot_map key <;> rfl
  · rw [hfound _ _ hwl]
  · intro hlk
    unfold slotWritePhase
    rw [hlk]
    dsimp only
    exact ⟨rfl, by simp⟩
  · cases hlk : lookupIdx σ.slot_map key with
    | some i =>
      have hweq : slotWritePhase cfg σ key = (σ, i) := by
        unfold slotWritePhase
        rw [hlk]
      rw [hweq]
      obtain ⟨s, hs⟩ := lookupIdx_get hlk
      rw [hs]
      have h2 := addressOk_spec haddr i (key, s) hs
      simpa using h2.1
    | none =>
      have hweq : slotWritePhase cfg σ key =
          ({ σ with slot_map := σ.slot_map ++
            [(key, ⟨key, ⟨σ.group_index, cfg.query_index, σ.slot_map.length⟩,
              .unresolved⟩)] }, σ.slot_map.length) := by
        unfold slotWritePhase
        rw [hlk]
      rw [hweq]
      rw [show ({ σ with slot_map := σ.slot_map ++
          [(key, (⟨key, ⟨σ.group_index, cfg.query_index, σ.slot_map.length⟩,
            .unresolved⟩ : Slot K V))] } : DerivedGlobalStorage K V).slot_map =
          σ.slot_map ++ [(key, ⟨key, ⟨σ.group_index, cfg.query_index,
            σ.slot_map.length⟩, .unresolved⟩)] from rfl]
      rw [List.getElem?_concat_length]
      rfl
  · exact lookupIdx_runFetches_preserved ops hwl
  · exact addressOk_runFetches ops _ (addressOk_writePhase key haddr)

/-- Witness for C3: key 21 inserted into the empty storage, with one
further fetch of another key afterwards. -/
theorem slot_single_creation_address_stable_witness :
    addressOk dblCfg sigEmpty = true ∧
      (DerivedGlobalStorage.slot dblCfg sigEmpty 21 = slotWritePhase dblCfg sigEmpty 21
      ∧ slotWritePhase dblCfg (slotWritePhase dblCfg sigEmpty 21).1 21 =
          slotWritePhase dblCfg sigEmpty 21
      ∧ lookupIdx (slotWritePhase dblCfg sigEmpty 21).1.slot_map 21 =
          some (slotWritePhase dblCfg sigEmpty 21).2
      ∧ (lookupIdx sigEmpty.slot_map 21 = none →
          (slotWritePhase dblCfg sigEmpty 21).2 = sigEmpty.slot_map.length ∧
            (slotWritePhase dblCfg sigEmpty 21).1.slot_map.length =
              sigEmpty.slot_map.length + 1)
      ∧ ((slotWritePhase dblCfg sigEmpty 21).1.slot_map[
            (slotWritePhase dblCfg sigEmpty 21).2]?).map
          (fun p => p.2.database_key_index) =
          some ⟨sigEmpty.group_index, dblCfg.query_index,
            (slotWritePhase dblCfg sigEmpty 21).2⟩
      ∧ lookupIdx (runFetches dblCfg [(ctx0, 5)]
            (slotWritePhase dblCfg sigEmpty 21).1).slot_map 21 =
          some (slotWritePhase dblCfg sigEmpty 21).2
      ∧ addressOk dblCfg (runFetches dblCfg [(ctx0, 5)]
            (slotWritePhase dblCfg sigEmpty 21).1) = true) :=
  ⟨rfl, slot_single_creation_address_stable dblCfg sigEmpty 21 [(ctx0, 5)] rfl⟩

/-! ### Lemmas about the LRU invariant -/

theorem record_use_capacity (l : LruState) (idx : Nat) :
    ((l.record_use idx).1).capacity = l.capacity := by
  unfold LruState.record_use
  by_cases hc : l.capacity = 0 <;> simp [hc]

theorem evictAt_capacity {K V : Type} (σ : DerivedGlobalStorage K V) (e : Nat) :
    (σ.evictAt e).lru_list.capacity = σ.lru_list.capacity := by
  rw [evictAt_lru]

theorem evictFold_lru {K V : Type} (E : List Nat) (σ : DerivedGlobalStorage K V) :
    (E.foldl DerivedGlobalStorage.evictAt σ).lru_list = σ.lru_list := by
  induction E generalizing σ with
  | nil => rfl
  | cons e rest ih =>
    simp only [List.foldl_cons]
    rw [ih, evictAt_lru]

theorem postStore_capacity {K V : Type} (σ : DerivedGlobalStorage K V) (i : Nat)
    (k : K) (s : Slot K V) (st : SlotState V) :
    (postStore σ i k s st).lru_list.capacity = σ.lru_list.capacity := by
  unfold postStore
  rw [evictFold_lru]
  exact record_use_capacity _ _

theorem fetch_capacity {K V : Type} [DecidableEq K] (cfg : QueryConfig K V)
    (ctx : Ctx) (σ : DerivedGlobalStorage K V) (key : K) :
    (fetch cfg ctx σ key).2.1.lru_list.capacity = σ.lru_list.capacity := by
  by_cases hc : ctx.cancelled = true
  · rw [fetch_cancelled_eq hc]
  · have hc2 : ctx.cancelled = false := by simpa using hc
    rw [@fetch_slotted K V _ cfg ctx σ key hc2]
    have hl1 : (σ.slot cfg key).1.lru_list = σ.lru_list := slot_lru cfg σ key
    have hlk1 := slot_lookup_self cfg σ key
    obtain ⟨s, hs1⟩ := lookupIdx_get hlk1
    cases hr : (slotRead cfg ctx s).1 with
    | error sig =>
      rw [fetch_found_error hc2 hlk1 hs1 hr]
      rw [hl1]
    | ok sv =>
      rw [fetch_found_ok hc2 hlk1 hs1 hr]
      dsimp only
      rw [postStore_capacity, hl1]

theorem evictAt_not_live {K V : Type} (σ : DerivedGlobalStorage K V) (e : Nat) :
    ∀ p : K × Slot K V, (σ.evictAt e).slot_map[e]? = some p → p.2.isLive = false := by
  intro p hp
  unfold DerivedGlobalStorage.evictAt at hp
  cases hg : σ.slot_map[e]? with
  | none =>
    rw [hg] at hp
    dsimp only at hp
    rw [hg] at hp
    exact absurd hp (by simp)
  | some q =>
    rw [hg] at hp
    dsimp only at hp
    have hlt : e < σ.slot_map.length := (List.getElem?_eq_some_iff.mp hg).1
    rw [List.getElem?_set_self (by simpa using hlt)] at hp
    obtain rfl := Option.some_inj.mp hp
    obtain ⟨qk, qdki, qst⟩ := q.2
    unfold Slot.evict Slot.isLive
    cases qst <;> rfl

theorem evictFold_keeps_not_live {K V : Type} (E : List Nat)
    (σ : DerivedGlobalStorage K V) (e : Nat)
    (h : ∀ p : K × Slot K V, σ.slot_map[e]? = some p → p.2.isLive = false) :
    ∀ p : K × Slot K V, (E.foldl DerivedGlobalStorage.evictAt σ).slot_map[e]? = some p →
      p.2.isLive = false := by
  induction E generalizing σ with
  | nil => exact h
  | cons e2 rest ih =>
    simp only [List.foldl_cons]
    apply ih
    by_cases he : e2 = e
    · subst he
      exact evictAt_not_live σ e2
    · intro p hp
      rw [evictAt_getElem_ne σ he] at hp
      exact h p hp

theorem evictFold_not_live {K V : Type} (E : List Nat)
    (σ : DerivedGlobalStorage K V) (e : Nat) (he : e ∈ E) :
    ∀ p : K × Slot K V, (E.foldl DerivedGlobalStorage.evictAt σ).slot_map[e]? = some p →
      p.2.isLive = false := by
  induction E generalizing σ with
  | nil => exact absurd he (List.not_mem_nil e)
  | cons e2 rest ih =>
    simp only [List.foldl_cons]
    rcases List.mem_cons.mp he with rfl | hr2
    · exact evictFold_keeps_not_live rest _ e (evictAt_not_live σ e)
    · exact ih _ hr2

theorem liveIdxs_mem {K V : Type} {σ : DerivedGlobalStorage K V} {i : Nat} :
    i ∈ liveIdxs σ ↔ i < σ.slot_map.length ∧
      ∃ p : K × Slot K V, σ.slot_map[i]? = some p ∧ p.2.isLive = true := by
  unfold liveIdxs
  rw [List.mem_filter, List.mem_range]
  constructor
  · rintro ⟨h1, h2⟩
    refine ⟨h1, ?_⟩
    cases hg : σ.slot_map[i]? with
    | none => rw [hg] at h2; exact absurd h2 (by simp)
    | some p =>
      rw [hg] at h2
      exact ⟨p, rfl, h2⟩
  · rintro ⟨h1, p, hp, hl⟩
    exact ⟨h1, by rw [hp]; exact hl⟩

theorem liveCount_le_of_inv {K V : Type} (σ : DerivedGlobalStorage K V)
    (hinv : LruInv σ) : liveCount σ ≤ σ.lru_list.capacity := by
  have hsub : liveIdxs σ ⊆ σ.lru_list.entries := by
    intro i hi
    rcases liveIdxs_mem.mp hi with ⟨_, p, hp, hl⟩
    exact hinv.2.2 i p hp hl
  have hnd : (liveIdxs σ).Nodup :=
    List.Nodup.filter _ (List.nodup_range _)
  have hle := (List.subperm_of_subset hnd hsub).length_le
  exact hle.trans hinv.2.1

theorem LruInv_postStore {K V : Type} (σ : DerivedGlobalStorage K V) (i : Nat)
    (k : K) (s : Slot K V) (st : SlotState V)
    (hcap : 0 < σ.lru_list.capacity) (hs : σ.slot_map[i]? = some (k, s))
    (hinv : LruInv σ) : LruInv (postStore σ i k s st) := by
  obtain ⟨hnd, hlen, hmem⟩ := hinv
  have hndes : (i :: σ.lru_list.entries.erase i).Nodup :=
    List.nodup_cons.mpr ⟨hnd.not_mem_erase, hnd.erase i⟩
  have hcap0 : σ.lru_list.capacity ≠ 0 := Nat.pos_iff_ne_zero.mp hcap
  have hru : (σ.lru_list.record_use i) =
      (⟨σ.lru_list.capacity,
        (i :: σ.lru_list.entries.erase i).take σ.lru_list.capacity⟩,
        (i :: σ.lru_list.entries.erase i).drop σ.lru_list.capacity) := by
    unfold LruState.record_use
    simp only [hcap0, if_false]
  unfold postStore
  dsimp only
  rw [hru]
  dsimp only
  refine ⟨?_, ?_, ?_⟩
  · rw [evictFold_lru]
    exact List.Nodup.sublist (List.take_sublist _ _) hndes
  · rw [evictFold_lru]
    exact List.length_take_le _ _
  · intro j p hp hl
    rw [evictFold_lru]
    by_cases hjE : j ∈ (i :: σ.lru_list.entries.erase i).drop σ.lru_list.capacity
    · exact absurd (evictFold_not_live _ _ j hjE p hp) (by simp [hl])
    · rw [evictFold_getElem_not_mem hjE] at hp
      dsimp only at hp
      have hjes : j ∈ i :: σ.lru_list.entries.erase i := by
        by_cases hij : j = i
        · subst hij
          exact List.mem_cons_self _ _
        · apply List.mem_cons_of_mem
          rw [hnd.mem_erase_iff]
          refine ⟨hij, ?_⟩
          rw [List.getElem?_set_ne (fun he => hij he.symm)] at hp
          exact hmem j p hp hl
      have htd := List.take_append_drop σ.lru_list.capacity
        (i :: σ.lru_list.entries.erase i)
      rw [← htd] at hjes
      rcases List.mem_append.mp hjes with h1 | h2
      · exact h1
      · exact absurd h2 hjE

theorem LruInv_slot {K V : Type} [DecidableEq K] (cfg : QueryConfig K V)
    (σ : DerivedGlobalStorage K V) (key : K) (hinv : LruInv σ) :
    LruInv (σ.slot cfg key).1 := by
  cases hlk : lookupIdx σ.slot_map key with
  | some i => rw [slot_found hlk]; exact hinv
  | none =>
    rw [slot_fresh hlk]
    obtain ⟨hnd, hlen, hmem⟩ := hinv
    refine ⟨hnd, hlen, ?_⟩
    intro j p hp hl
    by_cases hj : j < σ.slot_map.length
    · rw [show ({ σ with slot_map := σ.slot_map ++
          [(key, (⟨key, ⟨σ.group_index, cfg.query_index, σ.slot_map.length⟩,
            .unresolved⟩ : Slot K V))] } : DerivedGlobalStorage K V).slot_map =
          σ.slot_map ++ [(key, ⟨key, ⟨σ.group_index, cfg.query_index,
            σ.slot_map.length⟩, .unresolved⟩)] from rfl] at hp
      rw [List.getElem?_append_left hj] at hp
      exact hmem j p hp hl
    · rw [show ({ σ with slot_map := σ.slot_map ++
          [(key, (⟨key, ⟨σ.group_index, cfg.query_index, σ.slot_map.length⟩,
            .unresolved⟩ : Slot K V))] } : DerivedGlobalStorage K V).slot_map =
          σ.slot_map ++ [(key, ⟨key, ⟨σ.group_index, cfg.query_index,
            σ.slot_map.length⟩, .unresolved⟩)] from rfl] at hp
      have hj2 : j = σ.slot_map.length := by
        have hlen2 := (List.getElem?_eq_some_iff.mp hp).1
        simp only [List.length_append, List.length_cons, List.length_nil] at hlen2
        omega
      subst hj2
      rw [List.getElem?_concat_length] at hp
      obtain rfl := Option.some_inj.mp hp
      exact absurd hl (by simp [Slot.isLive])

theorem LruInv_fetch {K V : Type} [DecidableEq K] (cfg : QueryConfig K V)
    (ctx : Ctx) (σ : DerivedGlobalStorage K V) (key : K)
    (hcap : 0 < σ.lru_list.capacity) (hinv : LruInv σ) :
    LruInv (fetch cfg ctx σ key).2.1 := by
  by_cases hc : ctx.cancelled = true
  · rw [fetch_cancelled_eq hc]
    exact hinv
  · have hc2 : ctx.cancelled = false := by simpa using hc
    rw [@fetch_slotted K V _ cfg ctx σ key hc2]
    have h1 := LruInv_slot cfg σ key hinv
    have hl1 : (σ.slot cfg key).1.lru_list = σ.lru_list := slot_lru cfg σ key
    have hlk1 := slot_lookup_self cfg σ key
    obtain ⟨s, hs1⟩ := lookupIdx_get hlk1
    cases hr : (slotRead cfg ctx s).1 with
    | error sig =>
      rw [fetch_found_error hc2 hlk1 hs1 hr]
      exact h1
    | ok sv =>
      rw [fetch_found_ok hc2 hlk1 hs1 hr]
      exact LruInv_postStore _ _ _ _ _ (by rw [hl1]; exact hcap) hs1 h1

theorem LruInv_runFetches {K V : Type} [DecidableEq K] (cfg : QueryConfig K V)
    (ops : List (Ctx × K)) (σ : DerivedGlobalStorage K V)
    (hcap : 0 < σ.lru_list.capacity) (hinv : LruInv σ) :
    LruInv (runFetches cfg ops σ) ∧
      (runFetches cfg ops σ).lru_list.capacity = σ.lru_list.capacity := by
  induction ops generalizing σ with
  | nil => exact ⟨hinv, rfl⟩
  | cons op rest ih =>
    unfold runFetches
    simp only [List.foldl_cons]
    have hcap2 := fetch_capacity cfg op.1 σ op.2
    have h2 := ih (fetch cfg op.1 σ op.2).2.1 (by rw [hcap2]; exact hcap)
      (LruInv_fetch cfg op.1 σ op.2 hcap hinv)
    exact ⟨h2.1, h2.2.trans hcap2⟩

/-! ### Claim C6: the LRU bound with identity-preserving eviction -/

/-- C6: starting from an empty storage with positive LRU capacity, after
any sequence of fetches the number of slots retaining a live memoized
payload is at most the capacity; eviction clears only the memoized payload,
never a slot's key or address; and a fetch of a slot in the evicted
(unresolved) state triggers exactly one recomputation. -/
theorem lru_bound_eviction {K V : Type} [DecidableEq K] (cfg : QueryConfig K V)
    (g cap : Nat) (ops : List (Ctx × K)) (ctx : Ctx)
    (σ : DerivedGlobalStorage K V) (key : K) (i : Nat) (k : K) (s : Slot K V)
    (hcap : 0 < cap)
    (hc : ctx.cancelled = false)
    (hlk : lookupIdx σ.slot_map key = some i)
    (hs : σ.slot_map[i]? = some (k, s))
    (hst : s.state = .unresolved)
    (hstk : s.database_key_index ∉ ctx.stack) :
    liveCount (runFetches cfg ops (DerivedGlobalStorage.new K V g cap)) ≤ cap
  ∧ (Slot.evict s).key = s.key
  ∧ (Slot.evict s).database_key_index = s.database_key_index
  ∧ (fetch cfg ctx σ key).2.2 = 1 := by
  refine ⟨?_, (evict_preserves_identity s).1, (evict_preserves_identity s).2, ?_⟩
  · have hinv0 : LruInv (DerivedGlobalStorage.new K V g cap) := by
      refine ⟨List.nodup_nil, by simp [DerivedGlobalStorage.new], ?_⟩
      intro j p hp hl
      exact absurd hp (by simp [DerivedGlobalStorage.new])
    have h2 := LruInv_runFetches cfg ops (DerivedGlobalStorage.new K V g cap)
      (by simpa [DerivedGlobalStorage.new] using hcap) hinv0
    have h3 := liveCount_le_of_inv _ h2.1
    rw [h2.2] at h3
    simpa [DerivedGlobalStorage.new] using h3
  · have hr := @slotRead_unresolved K V cfg ctx s hc hstk hst
    rw [fetch_found_ok hc hlk hs (by rw [hr])]
    rw [hr]

/-- Witness for C6: capacity 1, fetch keys 1 then 2 — key 1's slot is
evicted (unresolved, identity retained), at most one live payload remains,
and refetching key 1 recomputes exactly once. -/
theorem lru_bound_eviction_witness :
    (0 : Nat) < 1 ∧
      (liveCount (runFetches dblCfg [(ctx0, 1), (ctx0, 2)]
          (DerivedGlobalStorage.new Nat Nat 3 1)) ≤ 1
      ∧ (Slot.evict (⟨1, ⟨3, 7, 0⟩, .unresolved⟩ : Slot Nat Nat)).key =
          (⟨1, ⟨3, 7, 0⟩, .unresolved⟩ : Slot Nat Nat).key
      ∧ (Slot.evict (⟨1, ⟨3, 7, 0⟩, .unresolved⟩ : Slot Nat Nat)).database_key_index =
          (⟨1, ⟨3, 7, 0⟩, .unresolved⟩ : Slot Nat Nat).database_key_index
      ∧ (fetch dblCfg ctx0 (runFetches dblCfg [(ctx0, 1), (ctx0, 2)]
          (DerivedGlobalStorage.new Nat Nat 3 1)) 1).2.2 = 1) :=
  ⟨by decide,
    lru_bound_eviction dblCfg 3 1 [(ctx0, 1), (ctx0, 2)] ctx0
      (runFetches dblCfg [(ctx0, 1), (ctx0, 2)] (DerivedGlobalStorage.new Nat Nat 3 1))
      1 0 1 ⟨1, ⟨3, 7, 0⟩, .unresolved⟩
      (by decide) rfl (by decide) (by decide) rfl (by decide)⟩
